import Mathlib

/-!
Verification development for the wosweat multi-site event extraction and
date-normalization core (netlify/functions/utils/scraper-utils.ts and
netlify/functions/scheduled-scrape.ts).

The scraping code is embedded shallowly:

* DOM access is abstracted away: each candidate container is represented by the
  raw text its selectors return (`RawFields` for the generic path, `Product`
  for the BigCartel catalog path).  The per-candidate field-extraction,
  date-normalization, inclusion and id logic is translated statement by
  statement from the source.
* The JavaScript regular expressions of `extractDateFromText` are translated
  into committed first-match scanners over `List Char`.  For each of the five
  concrete patterns in the source, committing to the greedy alternative is
  extensionally equal to full backtracking: whenever the engine would backtrack
  (e.g. shorten `\d{1,2}` from two digits to one), the shorter alternative is
  forced to fail immediately on the same character, because the follow-set of
  every quantified piece is disjoint from its character class.
* `Date.now()` is modelled by a clock parameter `clock : Nat → Nat` giving the
  millisecond reading observed while processing the candidate with a given
  index; `new Date().getFullYear()` is the `currentYear : Nat` parameter.
* `new URL(rel, base).toString()` is modelled by `resolveUrl`, covering the
  absolute, host-relative and path-relative cases exercised by the scraper.
* `String.prototype.toLowerCase` is modelled on the Latin range the scraper's
  patterns can see (ASCII letters and the umlauts of the month table).
-/

set_option maxHeartbeats 1000000

namespace Wosweat

/-! ### Character classes

`isDigitC` is the JS regex class `\d`, `isWs` the class `\s` (restricted to the
whitespace characters that occur in practice), `isMonthChar` the class
`[a-zäöü]` of the month-name pattern, and `isAbbrevChar` the class
`[A-Za-zäöüÄÖÜ]` of the weekday-abbreviation pattern.  All are phrased via
`Char.toNat` so that facts about them reduce to linear arithmetic. -/

def isDigitC (c : Char) : Bool := decide (48 ≤ c.toNat ∧ c.toNat ≤ 57)

def isWs (c : Char) : Bool :=
  decide (c.toNat = 32 ∨ c.toNat = 9 ∨ c.toNat = 10 ∨ c.toNat = 13 ∨
          c.toNat = 11 ∨ c.toNat = 12 ∨ c.toNat = 160)

def isMonthChar (c : Char) : Bool :=
  decide ((97 ≤ c.toNat ∧ c.toNat ≤ 122) ∨ c.toNat = 228 ∨ c.toNat = 246 ∨ c.toNat = 252)

def isAbbrevChar (c : Char) : Bool :=
  decide ((97 ≤ c.toNat ∧ c.toNat ≤ 122) ∨ (65 ≤ c.toNat ∧ c.toNat ≤ 90) ∨
          c.toNat = 228 ∨ c.toNat = 246 ∨ c.toNat = 252 ∨
          c.toNat = 196 ∨ c.toNat = 214 ∨ c.toNat = 220)

/-- Uppercase-to-lowercase table modelling `String.prototype.toLowerCase` on
the characters the scraper's patterns can distinguish (ASCII letters plus the
umlauts appearing in the month table). -/
def uppercaseMap : List (Char × Char) :=
  [('A', 'a'), ('B', 'b'), ('C', 'c'), ('D', 'd'), ('E', 'e'), ('F', 'f'),
   ('G', 'g'), ('H', 'h'), ('I', 'i'), ('J', 'j'), ('K', 'k'), ('L', 'l'),
   ('M', 'm'), ('N', 'n'), ('O', 'o'), ('P', 'p'), ('Q', 'q'), ('R', 'r'),
   ('S', 's'), ('T', 't'), ('U', 'u'), ('V', 'v'), ('W', 'w'), ('X', 'x'),
   ('Y', 'y'), ('Z', 'z'), ('Ä', 'ä'), ('Ö', 'ö'), ('Ü', 'ü')]

def lowerChar (c : Char) : Char :=
  match uppercaseMap.find? (fun p => p.1 == c) with
  | some p => p.2
  | none => c

def lowerL (cs : List Char) : List Char := cs.map lowerChar

/-! ### Text cleaner

`cleanText` models `text.replace(/\s+/g, ' ').trim()`: every maximal run of
whitespace becomes a single space, then leading/trailing whitespace is
removed. -/

def collapseWs : List Char → List Char
  | [] => []
  | [c] => if isWs c then [' '] else [c]
  | a :: b :: rest =>
    if isWs a then
      if isWs b then collapseWs (b :: rest)
      else ' ' :: collapseWs (b :: rest)
    else a :: collapseWs (b :: rest)

def trimWs (cs : List Char) : List Char :=
  ((cs.dropWhile isWs).reverse.dropWhile isWs).reverse

def cleanL (cs : List Char) : List Char := trimWs (collapseWs cs)

/-- Models `cleanText` from scraper-utils: collapse whitespace runs and trim.
(`cleanText('')` is `''` both via the falsy shortcut and via the pipeline.) -/
def cleanText (s : String) : String := String.mk (cleanL s.data)

/-! ### Decimal rendering of numbers

Models the template-literal conversion of a JS number (`${index}`,
`${Date.now()}`, `${year}`) to its decimal digit string.  Fuel-based so that
it reduces inside `decide`. -/

def digitChar (n : Nat) : Char :=
  if n = 0 then '0' else if n = 1 then '1' else if n = 2 then '2'
  else if n = 3 then '3' else if n = 4 then '4' else if n = 5 then '5'
  else if n = 6 then '6' else if n = 7 then '7' else if n = 8 then '8' else '9'

def natCharsAux : Nat → Nat → List Char
  | 0, _ => []
  | fuel + 1, n =>
    if n < 10 then [digitChar n]
    else natCharsAux fuel (n / 10) ++ [digitChar (n % 10)]

def natChars (n : Nat) : List Char := natCharsAux (n + 1) n

def natString (n : Nat) : String := String.mk (natChars n)

/-- Models the id template `` `event-${index}-${Date.now()}` `` of the generic
and catalog extraction loops. -/
def mkId (index now : Nat) : String :=
  "event-" ++ natString index ++ "-" ++ natString now

/-! ### Date normalizer (`extractDateFromText`)

The five regular expressions of the source, in source order:

1. `/(\d{1,2})\.(\d{1,2})\.(\d{4})$/`            (`coreNumEnd`)
2. `/.*?(\d{1,2})\.(\d{1,2})\.(\d{4})/`          (`coreNumAny`)
3. `/(\d{1,2})\.(\d{1,2})\.(\d{4})?/`            (`coreNumOpt`)
4. `/([A-Za-zäöüÄÖÜ]{2,3})\.?\s*(\d{1,2})\.(\d{1,2})\.(\d{4})?/` (`coreAbbrevDay`)
5. `/(\d{1,2})\.?\s+([a-zäöü]+)\.?\s+(\d{4})/` on the lowercased text
                                                  (`coreMonthName`)

Each `core…` function matches its pattern at the start of the list;
`searchO` turns that into the JS leftmost-match search. -/

def takeDigit2or1 : List Char → Option (List Char × List Char)
  | [] => none
  | [a] => if isDigitC a then some ([a], []) else none
  | a :: b :: rest =>
    if isDigitC a then
      if isDigitC b then some ([a, b], rest) else some ([a], b :: rest)
    else none

def takeDigits4 : List Char → Option (List Char × List Char)
  | a :: b :: c :: d :: rest =>
    if isDigitC a && isDigitC b && isDigitC c && isDigitC d then
      some ([a, b, c, d], rest)
    else none
  | _ => none

def expectDot : List Char → Option (List Char)
  | [] => none
  | c :: rest => if c = '.' then some rest else none

def skipOptDot : List Char → List Char
  | [] => []
  | c :: rest => if c = '.' then rest else c :: rest

def coreNumEnd (cs : List Char) : Option (List Char × List Char × List Char) :=
  match takeDigit2or1 cs with
  | none => none
  | some (d, r1) =>
    match expectDot r1 with
    | none => none
    | some r2 =>
      match takeDigit2or1 r2 with
      | none => none
      | some (m, r3) =>
        match expectDot r3 with
        | none => none
        | some r4 =>
          match takeDigits4 r4 with
          | none => none
          | some (y, r5) => if r5.isEmpty then some (d, m, y) else none

def coreNumAny (cs : List Char) : Option (List Char × List Char × List Char) :=
  match takeDigit2or1 cs with
  | none => none
  | some (d, r1) =>
    match expectDot r1 with
    | none => none
    | some r2 =>
      match takeDigit2or1 r2 with
      | none => none
      | some (m, r3) =>
        match expectDot r3 with
        | none => none
        | some r4 =>
          match takeDigits4 r4 with
          | none => none
          | some (y, _) => some (d, m, y)

def coreNumOpt (cs : List Char) : Option (List Char × List Char × Option (List Char)) :=
  match takeDigit2or1 cs with
  | none => none
  | some (d, r1) =>
    match expectDot r1 with
    | none => none
    | some r2 =>
      match takeDigit2or1 r2 with
      | none => none
      | some (m, r3) =>
        match expectDot r3 with
        | none => none
        | some r4 =>
          match takeDigits4 r4 with
          | some (y, _) => some (d, m, some y)
          | none => some (d, m, none)

def coreAbbrevDay (cs : List Char) : Option (List Char × List Char × Option (List Char)) :=
  match cs with
  | a :: b :: rest =>
    if isAbbrevChar a && isAbbrevChar b then
      let rest1 :=
        match rest with
        | c :: rest2 => if isAbbrevChar c then rest2 else rest
        | [] => []
      coreNumOpt ((skipOptDot rest1).dropWhile isWs)
    else none
  | _ => none

def coreMonthName (cs : List Char) : Option (List Char × List Char × List Char) :=
  match takeDigit2or1 cs with
  | none => none
  | some (d, r1) =>
    match skipOptDot r1 with
    | [] => none
    | c :: rest =>
      if isWs c then
        let r2 := rest.dropWhile isWs
        let name := r2.takeWhile isMonthChar
        if name.isEmpty then none
        else
          match skipOptDot (r2.dropWhile isMonthChar) with
          | [] => none
          | c2 :: rest2 =>
            if isWs c2 then
              match takeDigits4 (rest2.dropWhile isWs) with
              | some (y, _) => some (d, name, y)
              | none => none
            else none
      else none

/-- Leftmost-match search: try the core pattern at every start position from
the left, as `String.prototype.match` does for an unanchored regex. -/
def searchO {α : Type} (core : List Char → Option α) : List Char → Option α
  | [] => core []
  | c :: rest =>
    match core (c :: rest) with
    | some r => some r
    | none => searchO core rest

/-- The bilingual month-name table of `extractDateFromText`, in source order. -/
def monthNames : List (String × String) :=
  [("januar", "01"), ("january", "01"), ("jänner", "01"), ("jan", "01"),
   ("februar", "02"), ("february", "02"), ("feb", "02"),
   ("märz", "03"), ("march", "03"), ("mar", "03"),
   ("april", "04"), ("apr", "04"),
   ("mai", "05"), ("may", "05"),
   ("juni", "06"), ("june", "06"), ("jun", "06"),
   ("juli", "07"), ("july", "07"), ("jul", "07"),
   ("august", "08"), ("aug", "08"),
   ("september", "09"), ("sep", "09"), ("sept", "09"),
   ("oktober", "10"), ("october", "10"), ("okt", "10"), ("oct", "10"),
   ("november", "11"), ("nov", "11"),
   ("dezember", "12"), ("december", "12"), ("dez", "12"), ("dec", "12")]

/-- Own-property lookup in the month-name table (the TypeScript index
signature `{ [key: string]: string }`; prototype-inherited keys are not
modelled). -/
def lookupMonth (k : String) : Option String :=
  (monthNames.find? (fun p => p.1 == k)).map (fun p => p.2)

/-- Models `padStart(2, '0')`. -/
def pad2 (l : List Char) : List Char := List.replicate (2 - l.length) '0' ++ l

/-- Assembles `` `${year}-${month.padStart(2,'0')}-${day.padStart(2,'0')}` ``. -/
def fmtDMY (d m y : List Char) : List Char := y ++ '-' :: (pad2 m ++ '-' :: pad2 d)

/-- The pattern cascade of `extractDateFromText` on an already-cleaned text.
`yd` is the decimal rendering of `new Date().getFullYear()`, substituted when
the optional year group of pattern 3 or 4 is absent. -/
def matchChain (yd cs : List Char) : Option (List Char) :=
  match searchO coreNumEnd cs with
  | some (d, m, y) => some (fmtDMY d m y)
  | none =>
    match searchO coreNumAny cs with
    | some (d, m, y) => some (fmtDMY d m y)
    | none =>
      match searchO coreNumOpt cs with
      | some (d, m, yOpt) => some (fmtDMY d m (yOpt.getD yd))
      | none =>
        match searchO coreAbbrevDay cs with
        | some (d, m, yOpt) => some (fmtDMY d m (yOpt.getD yd))
        | none =>
          match searchO coreMonthName (lowerL cs) with
          | none => none
          | some (d, name, y) =>
            match lookupMonth (String.mk (lowerL name)) with
            | some mm => some (y ++ '-' :: (mm.data ++ '-' :: pad2 d))
            | none => none

/-- Models `extractDateFromText` on character lists: empty input returns
`''`, otherwise the cleaned text is run through the pattern cascade and, on a
total miss, returned unchanged. -/
def extractDateL (yd cs : List Char) : List Char :=
  match cs with
  | [] => []
  | _ :: _ =>
    let c := cleanL cs
    (matchChain yd c).getD c

/-- Models `extractDateFromText` from scraper-utils, with
`new Date().getFullYear()` made explicit as `currentYear`. -/
def extractDateFromText (currentYear : Nat) (s : String) : String :=
  String.mk (extractDateL (natChars currentYear) s.data)

/-! ### Event records and the generic extraction loop -/

/-- The `EventData` record of shared/types/events.ts. -/
structure EventData where
  id : String
  title : String
  date : String
  description : String
  url : String
  venue : Option String
  imageUrl : Option String
deriving Repr, DecidableEq

/-- The raw selector results for one candidate container of the generic loop:
`title` text, `date` text, concatenated `description` text, the first `href`
attribute and the first `src` attribute (absent attributes are `none`). -/
structure RawFields where
  rawTitle : String
  rawDate : String
  rawDescription : String
  href : Option String
  src : Option String
deriving Repr, DecidableEq

/-- Substring test on character lists (models `String.prototype.includes`). -/
def hasSub (needle : List Char) : List Char → Bool
  | [] => needle.isEmpty
  | c :: rest => needle.isPrefixOf (c :: rest) || hasSub needle rest

/-- Models `url.includes(sub)`. -/
def urlHas (url sub : String) : Bool := hasSub sub.data url.data

/-- The `venue` labels of `getSelectorsForSite`, selected by the same
`url.includes` cascade in the same order. -/
def venueFor (url : String) : String :=
  if urlHas url "treibhaus.at" then "Treibhaus Innsbruck"
  else if urlHas url "pmk.or.at" then "PMK Innsbruck"
  else if urlHas url "artilleryproductions.bigcartel.com" then "Artillery Productions"
  else if urlHas url "music-hall.at" then "Music Hall Innsbruck"
  else if urlHas url "diebaeckerei.at" then "Die Bäckerei"
  else "Unknown Venue"

def originChars (cs : List Char) : List Char :=
  if "https://".data.isPrefixOf cs then
    "https://".data ++ (cs.drop 8).takeWhile (fun c => c != '/')
  else if "http://".data.isPrefixOf cs then
    "http://".data ++ (cs.drop 7).takeWhile (fun c => c != '/')
  else cs

def dropLastSegment (cs : List Char) : List Char :=
  (cs.reverse.dropWhile (fun c => c != '/')).reverse

/-- Models `new URL(rel, base).toString()` for the three cases the scraper
produces: an already-absolute link, a host-relative (`/…`) link resolved
against the base's origin, and a path-relative link resolved against the
base's directory. -/
def resolveUrl (rel base : String) : String :=
  if "http://".data.isPrefixOf rel.data || "https://".data.isPrefixOf rel.data then rel
  else if rel.data.head? = some '/' then String.mk (originChars base.data ++ rel.data)
  else String.mk (dropLastSegment base.data ++ rel.data)

/-- The body of the generic per-container loop of `scrapeWithCheerio`:
clean the selector texts, normalize the date (falling back to the title when
the date text is empty), apply the inclusion rule
`title && (hasDate || dateText)`, and assemble the event. -/
def processCandidate (currentYear now : Nat) (baseUrl venue : String) (index : Nat)
    (c : RawFields) : Option EventData :=
  let title := cleanText c.rawTitle
  let dateText := cleanText c.rawDate
  let description := cleanText c.rawDescription
  let relativeUrl := (c.href).getD ""
  let imageUrl : Option String :=
    match c.src with
    | some s => if s = "" then none else some s
    | none => none
  let date := extractDateFromText currentYear (if dateText = "" then title else dateText)
  let hasDate := (date != "") && (date != dateText) && (date != title)
  if (title != "") && (hasDate || (dateText != "")) then
    some { id := mkId index now
         , title := title
         , date := if hasDate then date else dateText
         , description := description
         , url := if relativeUrl != "" then resolveUrl relativeUrl baseUrl else baseUrl
         , venue := some venue
         , imageUrl := imageUrl.map (fun i => resolveUrl i baseUrl) }
  else none

def scrapeAux (currentYear : Nat) (clock : Nat → Nat) (baseUrl venue : String) :
    Nat → List RawFields → List EventData
  | _, [] => []
  | i, c :: rest =>
    match processCandidate currentYear (clock i) baseUrl venue i c with
    | some e => e :: scrapeAux currentYear clock baseUrl venue (i + 1) rest
    | none => scrapeAux currentYear clock baseUrl venue (i + 1) rest

/-- The generic extraction path of `scrapeWithCheerio` over a parsed document
(given as the list of raw selector results of its candidate containers). -/
def scrapeWithCheerioGeneric (currentYear : Nat) (clock : Nat → Nat) (url : String)
    (doc : List RawFields) : List EventData :=
  scrapeAux currentYear clock url (venueFor url) 0 doc

/-! ### Catalog-style (BigCartel) specialized extractor -/

/-- Raw selector results for one `.product` of `extractArtilleryEvents`. -/
structure Product where
  rawName : String
  rawPrice : String
  href : Option String
  src : Option String
deriving Repr, DecidableEq

/-- The body of the per-product loop of `extractArtilleryEvents`: skip on
empty title, match `/.*?(\d{1,2})\.(\d{1,2})\.(\d{4})/` against the title for
the date (empty string on a miss), and put the price into the description. -/
def artilleryItem (now : Nat) (url : String) (index : Nat) (p : Product) :
    Option EventData :=
  let title := cleanText p.rawName
  if title = "" then none
  else
    let eventDate : String :=
      match searchO coreNumAny title.data with
      | some (d, m, y) => String.mk (fmtDMY d m y)
      | none => ""
    let price := cleanText p.rawPrice
    let productUrl := (p.href).getD ""
    let imageUrl : Option String :=
      match p.src with
      | some s => if s = "" then none else some s
      | none => none
    some { id := mkId index now
         , title := title
         , date := eventDate
         , description := if price != "" then "Price: " ++ price else ""
         , url := if productUrl != "" then resolveUrl productUrl url else url
         , venue := some "Artillery Productions"
         , imageUrl := imageUrl.map (fun i => resolveUrl i url) }

def artilleryAux (clock : Nat → Nat) (url : String) : Nat → List Product → List EventData
  | _, [] => []
  | i, p :: rest =>
    match artilleryItem (clock i) url i p with
    | some e => e :: artilleryAux clock url (i + 1) rest
    | none => artilleryAux clock url (i + 1) rest

/-- Models `extractArtilleryEvents`. -/
def extractArtilleryEvents (clock : Nat → Nat) (url : String) (ps : List Product) :
    List EventData :=
  artilleryAux clock url 0 ps

/-! ### Multi-site aggregation (scheduled-scrape.ts, lines 26-44)

Each site's `scrapeEvents` call is represented by its outcome: the event list
it resolved with, or the value it threw (`Thrown.error m` for an `Error`
instance with message `m`, `Thrown.other` for a non-`Error` value).  The
handler catches per-site, records the error, substitutes `[]`, and flattens
the per-site results in input order. -/

inductive Thrown where
  | error (msg : String)
  | other
deriving Repr, DecidableEq

structure SiteRun where
  url : String
  outcome : Except Thrown (List EventData)

/-- The message recorded for a failed site:
`error instanceof Error ? error : new Error("Unknown error scraping " + site)`. -/
def failureMessage (url : String) (t : Thrown) : String :=
  match t with
  | .error msg => msg
  | .other => "Unknown error scraping " ++ url

def siteEvents (s : SiteRun) : List EventData :=
  match s.outcome with
  | .ok evs => evs
  | .error _ => []

def siteFailure (s : SiteRun) : Option String :=
  match s.outcome with
  | .ok _ => none
  | .error t => some (failureMessage s.url t)

/-- The aggregation step of the scheduled handler: per-site catch, flatten in
site order, collect failure messages.  (With more than one failing site the
real `errors` array order depends on promise-completion order; with at most
one failure, as in the properties below, the order is canonical.) -/
def aggregateSites (sites : List SiteRun) : List EventData × List String :=
  ((sites.map siteEvents).flatten, sites.filterMap siteFailure)

/-! ### Specification-side predicates -/

/-- Shape predicate: exactly `DDDD-DD-DD` with decimal digits (the digit
shape of an ISO calendar date, without range validation). -/
def isIsoShape (s : String) : Bool :=
  match s.data with
  | [y1, y2, y3, y4, h1, m1, m2, h2, d1, d2] =>
    isDigitC y1 && isDigitC y2 && isDigitC y3 && isDigitC y4 &&
    (h1 == '-') && isDigitC m1 && isDigitC m2 &&
    (h2 == '-') && isDigitC d1 && isDigitC d2
  | _ => false

def toNatDigits (l : List Char) : Nat :=
  l.foldl (fun acc c => acc * 10 + (c.toNat - 48)) 0

def daysInMonth (y m : Nat) : Nat :=
  if m = 2 then (if (y % 4 = 0 ∧ y % 100 ≠ 0) ∨ y % 400 = 0 then 29 else 28)
  else if m = 4 ∨ m = 6 ∨ m = 9 ∨ m = 11 then 30
  else 31

/-- Claim-side predicate for C2: the string is a valid `YYYY-MM-DD` calendar
date (digit shape, month 1-12, day within the month, Gregorian leap rule). -/
def isValidCalendarDate (s : String) : Bool :=
  isIsoShape s &&
  (match s.data with
   | [y1, y2, y3, y4, _, m1, m2, _, d1, d2] =>
     let y := toNatDigits [y1, y2, y3, y4]
     let m := toNatDigits [m1, m2]
     let d := toNatDigits [d1, d2]
     decide (1 ≤ m ∧ m ≤ 12 ∧ 1 ≤ d ∧ d ≤ daysInMonth y m)
   | _ => false)

/-- Claim-side predicate for C4: some pattern of the normalizer produced a
date from this (cleaned) text.  Whether the cascade hits is independent of the
default-year rendering, so it is probed with the empty year. -/
def datePatternFound (cs : List Char) : Bool := (matchChain [] cs).isSome

/-- Forgets the id field (used to state which fields depend on the clock). -/
def stripId (e : EventData) : EventData := { e with id := "" }

/-! ### Auxiliary predicates for the proofs -/

/-- Scans for a literal dot immediately followed by a digit.  Every numeric
pattern of the normalizer (patterns 1-4) has to cross a `\.` into a `\d`, so
its absence refutes all four at once. -/
def dotDigitB : List Char → Bool
  | [] => false
  | [_] => false
  | a :: b :: rest => ((a == '.') && isDigitC b) || dotDigitB (b :: rest)

/-- Shape of a `\d{1,2}` capture. -/
def digitCapture (l : List Char) : Prop :=
  (∀ c ∈ l, isDigitC c = true) ∧ (l.length = 1 ∨ l.length = 2)

/-- Shape of a `\d{4}` capture. -/
def digitCapture4 (l : List Char) : Prop :=
  (∀ c ∈ l, isDigitC c = true) ∧ l.length = 4

/-- All whitespace in the list is a plain space. -/
def wsOnlySpace (l : List Char) : Prop := ∀ c ∈ l, isWs c = true → c = ' '

/-- No two adjacent whitespace characters. -/
def noAdjWs (l : List Char) : Prop :=
  List.Chain' (fun a b => (isWs a && isWs b) = false) l

/-! ## Character-class facts -/

theorem not_ws_of_digit {c : Char} (h : isDigitC c = true) : isWs c = false := by
  simp only [isDigitC, decide_eq_true_eq] at h
  simp only [isWs, decide_eq_false_iff_not]
  omega

theorem ne_dot_of_digit {c : Char} (h : isDigitC c = true) : (c == '.') = false := by
  simp only [beq_eq_false_iff_ne]
  intro he
  subst he
  exact absurd h (by decide)

theorem not_ws_of_monthChar {c : Char} (h : isMonthChar c = true) : isWs c = false := by
  simp only [isMonthChar, decide_eq_true_eq] at h
  simp only [isWs, decide_eq_false_iff_not]
  omega

theorem ne_dot_of_monthChar {c : Char} (h : isMonthChar c = true) : (c == '.') = false := by
  simp only [beq_eq_false_iff_ne]
  intro he
  subst he
  exact absurd h (by decide)

theorem not_digit_of_monthChar {c : Char} (h : isMonthChar c = true) : isDigitC c = false := by
  simp only [isMonthChar, decide_eq_true_eq] at h
  simp only [isDigitC, decide_eq_false_iff_not]
  omega

/-! ## Decimal rendering: digit facts, injectivity, length -/

theorem isDigitC_digitChar (n : Nat) : isDigitC (digitChar n) = true := by
  unfold digitChar
  split_ifs <;> decide

theorem digitChar_inj {a b : Nat} (ha : a < 10) (hb : b < 10)
    (h : digitChar a = digitChar b) : a = b := by
  interval_cases a <;> interval_cases b <;> revert h <;> decide

theorem natCharsAux_fuel :
    ∀ (f1 n f2 : Nat), n < f1 → n < f2 → natCharsAux f1 n = natCharsAux f2 n := by
  intro f1
  induction f1 with
  | zero => intro n f2 h1 _; omega
  | succ f ih =>
    intro n f2 h1 h2
    cases f2 with
    | zero => omega
    | succ g =>
      by_cases hn : n < 10
      · simp [natCharsAux, hn]
      · simp only [natCharsAux, if_neg hn]
        rw [ih (n / 10) g (by omega) (by omega)]

theorem natChars_lt10 {n : Nat} (h : n < 10) : natChars n = [digitChar n] := by
  simp [natChars, natCharsAux, h]

theorem natChars_ge10 {n : Nat} (h : 10 ≤ n) :
    natChars n = natChars (n / 10) ++ [digitChar (n % 10)] := by
  show natCharsAux (n + 1) n = _
  simp only [natCharsAux, if_neg (by omega : ¬ n < 10)]
  rw [natCharsAux_fuel n (n / 10) (n / 10 + 1) (by omega) (by omega)]
  rfl

theorem natChars_ne_nil (n : Nat) : natChars n ≠ [] := by
  by_cases h : n < 10
  · simp [natChars_lt10 h]
  · simp [natChars_ge10 (by omega : 10 ≤ n)]

theorem natChars_digits (n : Nat) : ∀ c ∈ natChars n, isDigitC c = true := by
  induction n using Nat.strong_induction_on with
  | _ n ih =>
    by_cases h : n < 10
    · rw [natChars_lt10 h]
      intro c hc
      rw [List.mem_singleton] at hc
      subst hc
      exact isDigitC_digitChar n
    · rw [natChars_ge10 (by omega : 10 ≤ n)]
      intro c hc
      rcases List.mem_append.1 hc with h1 | h2
      · exact ih (n / 10) (by omega) c h1
      · rw [List.mem_singleton] at h2
        subst h2
        exact isDigitC_digitChar (n % 10)

theorem natChars_inj : ∀ {a b : Nat}, natChars a = natChars b → a = b := by
  intro a
  induction a using Nat.strong_induction_on with
  | _ a ih =>
    intro b h
    by_cases ha : a < 10 <;> by_cases hb : b < 10
    · rw [natChars_lt10 ha, natChars_lt10 hb] at h
      simp only [List.cons.injEq, and_true] at h
      exact digitChar_inj ha hb h
    · rw [natChars_lt10 ha, natChars_ge10 (by omega : 10 ≤ b)] at h
      have hlen := congrArg List.length h
      have hpos : 0 < (natChars (b / 10)).length :=
        List.length_pos.2 (natChars_ne_nil (b / 10))
      simp only [List.length_singleton, List.length_append] at hlen
      omega
    · rw [natChars_ge10 (by omega : 10 ≤ a), natChars_lt10 hb] at h
      have hlen := congrArg List.length h
      have hpos : 0 < (natChars (a / 10)).length :=
        List.length_pos.2 (natChars_ne_nil (a / 10))
      simp only [List.length_singleton, List.length_append] at hlen
      omega
    · rw [natChars_ge10 (by omega : 10 ≤ a), natChars_ge10 (by omega : 10 ≤ b)] at h
      have h2 := congrArg List.reverse h
      simp only [List.reverse_append, List.reverse_cons, List.reverse_nil,
        List.nil_append, List.singleton_append, List.cons.injEq] at h2
      obtain ⟨hx, hl⟩ := h2
      have hquot : a / 10 = b / 10 :=
        ih (a / 10) (by omega) (List.reverse_injective hl)
      have hmod : a % 10 = b % 10 :=
        digitChar_inj (Nat.mod_lt _ (by omega)) (Nat.mod_lt _ (by omega)) hx
      omega

theorem natChars_len4 {y : Nat} (h1 : 1000 ≤ y) (h2 : y < 10000) :
    (natChars y).length = 4 := by
  have e1 := natChars_ge10 (show 10 ≤ y by omega)
  have e2 := natChars_ge10 (show 10 ≤ y / 10 by omega)
  have e3 := natChars_ge10 (show 10 ≤ y / 10 / 10 by omega)
  have e4 := natChars_lt10 (show y / 10 / 10 / 10 < 10 by omega)
  rw [e1, e2, e3, e4]
  simp

theorem digit_dash_append_inj :
    ∀ (a : List Char), (∀ c ∈ a, isDigitC c = true) →
    ∀ (b x y : List Char), (∀ c ∈ b, isDigitC c = true) →
      a ++ '-' :: x = b ++ '-' :: y → a = b ∧ x = y := by
  intro a
  induction a with
  | nil =>
    intro _ b x y hb h
    cases b with
    | nil => simpa using h
    | cons c bs =>
      simp only [List.nil_append, List.cons_append, List.cons.injEq] at h
      have hc := hb c (by simp)
      rw [← h.1] at hc
      exact absurd hc (by decide)
  | cons c as ih =>
    intro ha b x y hb h
    cases b with
    | nil =>
      simp only [List.cons_append, List.nil_append, List.cons.injEq] at h
      have hc := ha c (by simp)
      rw [h.1] at hc
      exact absurd hc (by decide)
    | cons d bs =>
      simp only [List.cons_append, List.cons.injEq] at h
      obtain ⟨hcd, hrest⟩ := h
      have hres := ih (fun e he => ha e (by simp [he])) bs x y
        (fun e he => hb e (by simp [he])) hrest
      exact ⟨by rw [hcd, hres.1], hres.2⟩

theorem mkId_inj {i j t1 t2 : Nat} (h : mkId i t1 = mkId j t2) : i = j := by
  have hd := congrArg String.data h
  simp only [mkId, natString, String.data_append] at hd
  have h3 : "event-".data ++ (natChars i ++ '-' :: natChars t1) =
      "event-".data ++ (natChars j ++ '-' :: natChars t2) := by
    simpa [List.append_assoc] using hd
  have hd2 := List.append_cancel_left h3
  exact natChars_inj (digit_dash_append_inj (natChars i) (natChars_digits i)
    (natChars j) (natChars t1) (natChars t2) (natChars_digits j) hd2).1

/-! ## Text-cleaner facts -/

theorem mem_of_mem_getLastQ {l : List Char} {c : Char} (h : c ∈ l.getLast?) : c ∈ l := by
  rw [← List.head?_reverse] at h
  exact List.mem_reverse.1 (List.mem_of_mem_head? h)

theorem collapseWs_head :
    ∀ (rest : List Char) (a : Char),
      (collapseWs (a :: rest)).head? = some (if isWs a then ' ' else a) := by
  intro rest
  induction rest with
  | nil =>
    intro a
    by_cases h : isWs a = true <;> simp [collapseWs, h]
  | cons b rest2 ih =>
    intro a
    by_cases ha : isWs a = true
    · by_cases hb : isWs b = true
      · simp only [collapseWs, if_pos ha, if_pos hb]
        rw [ih b]
        simp [ha, hb]
      · simp [collapseWs, ha, hb]
    · simp [collapseWs, ha]

theorem collapseWs_wsOnlySpace : ∀ cs, wsOnlySpace (collapseWs cs) := by
  intro cs
  induction cs with
  | nil => intro c hc _; simp [collapseWs] at hc
  | cons a rest ih =>
    cases rest with
    | nil =>
      intro c hc hw
      by_cases h : isWs a = true
      · simp only [collapseWs, if_pos h, List.mem_singleton] at hc
        exact hc
      · simp only [collapseWs, if_neg h, List.mem_singleton] at hc
        subst hc
        exact absurd hw h
    | cons b rest2 =>
      intro c hc hw
      by_cases h1 : isWs a = true
      · by_cases h2 : isWs b = true
        · simp only [collapseWs, if_pos h1, if_pos h2] at hc
          exact ih c hc hw
        · simp only [collapseWs, if_pos h1, if_neg h2, List.mem_cons] at hc
          rcases hc with hc | hc
          · exact hc
          · exact ih c hc hw
      · simp only [collapseWs, if_neg h1, List.mem_cons] at hc
        rcases hc with hc | hc
        · subst hc; exact absurd hw h1
        · exact ih c hc hw

theorem collapseWs_noAdjWs : ∀ cs, noAdjWs (collapseWs cs) := by
  intro cs
  induction cs with
  | nil => simp [collapseWs, noAdjWs]
  | cons a rest ih =>
    cases rest with
    | nil =>
      by_cases h : isWs a = true <;> simp [collapseWs, h, noAdjWs]
    | cons b rest2 =>
      by_cases h1 : isWs a = true
      · by_cases h2 : isWs b = true
        · simpa only [collapseWs, if_pos h1, if_pos h2] using ih
        · show List.Chain' _ _
          simp only [collapseWs, if_pos h1, if_neg h2]
          rw [List.chain'_cons']
          refine ⟨?_, ih⟩
          intro y hy
          rw [collapseWs_head rest2 b, Option.mem_def, Option.some.injEq] at hy
          rw [Bool.not_eq_true] at h2
          subst hy
          simp [h2]
      · show List.Chain' _ _
        simp only [collapseWs, if_neg h1]
        rw [List.chain'_cons']
        rw [Bool.not_eq_true] at h1
        exact ⟨fun y _ => by simp [h1], ih⟩

theorem collapseWs_eq_self : ∀ cs, wsOnlySpace cs → noAdjWs cs → collapseWs cs = cs := by
  intro cs
  induction cs with
  | nil => intro _ _; rfl
  | cons a rest ih =>
    intro hws hadj
    cases rest with
    | nil =>
      by_cases h : isWs a = true
      · have ha := hws a (by simp) h
        simp [collapseWs, h, ha]
      · simp [collapseWs, h]
    | cons b rest2 =>
      unfold noAdjWs at hadj
      rw [List.chain'_cons'] at hadj
      have hsub : wsOnlySpace (b :: rest2) := fun c hc hw => hws c (by simp [hc]) hw
      have hadj2 : noAdjWs (b :: rest2) := hadj.2
      by_cases h1 : isWs a = true
      · have ha := hws a (by simp) h1
        by_cases h2 : isWs b = true
        · have hpair := hadj.1 b (by rfl)
          rw [h1, h2] at hpair
          simp at hpair
        · simp only [collapseWs, if_pos h1, if_neg h2]
          rw [ih hsub hadj2, ha]
      · simp only [collapseWs, if_neg h1]
        rw [ih hsub hadj2]

theorem dropWhile_head_not (p : Char → Bool) :
    ∀ l : List Char, ∀ c ∈ (List.dropWhile p l).head?, p c = false := by
  intro l
  induction l with
  | nil => simp [List.dropWhile]
  | cons a rest ih =>
    by_cases h : p a = true
    · simpa [List.dropWhile_cons, h] using ih
    · rw [Bool.not_eq_true] at h
      simp [List.dropWhile_cons, h]

theorem trimWs_subset (cs : List Char) : trimWs cs ⊆ cs := by
  intro c hc
  unfold trimWs at hc
  rw [List.mem_reverse] at hc
  have h1 := (List.dropWhile_suffix isWs).subset hc
  rw [List.mem_reverse] at h1
  exact (List.dropWhile_suffix isWs).subset h1

theorem trimWs_eq_self {cs : List Char} (h1 : ∀ c ∈ cs.head?, isWs c = false)
    (h2 : ∀ c ∈ cs.getLast?, isWs c = false) : trimWs cs = cs := by
  unfold trimWs
  cases cs with
  | nil => rfl
  | cons a rest =>
    have ha : isWs a = false := h1 a rfl
    rw [List.dropWhile_cons, if_neg (by simp [ha])]
    cases hrev : (a :: rest).reverse with
    | nil => simp at hrev
    | cons b rest2 =>
      have hbmem : b ∈ (a :: rest).getLast? := by
        rw [← List.head?_reverse, hrev]; rfl
      have hbws : isWs b = false := h2 b hbmem
      rw [List.dropWhile_cons, if_neg (by simp [hbws]), ← hrev,
        List.reverse_reverse]

theorem noAdjWs_reverse {l : List Char} (h : noAdjWs l) : noAdjWs l.reverse := by
  unfold noAdjWs at *
  rw [List.chain'_reverse]
  exact List.Chain'.imp (fun a b hab => by
    rw [Bool.and_comm] at hab
    exact hab) h

theorem noAdjWs_dropWhile (p : Char → Bool) {l : List Char} (h : noAdjWs l) :
    noAdjWs (l.dropWhile p) :=
  List.Chain'.suffix h (List.dropWhile_suffix p)

theorem noAdjWs_of_no_ws : ∀ cs : List Char, (∀ c ∈ cs, isWs c = false) → noAdjWs cs := by
  intro cs
  induction cs with
  | nil => intro _; simp [noAdjWs]
  | cons a rest ih =>
    intro h
    unfold noAdjWs
    rw [List.chain'_cons']
    exact ⟨fun y _ => by simp [h a (by simp)],
      ih (fun c hc => h c (by simp [hc]))⟩

theorem cleanL_wsOnlySpace (cs : List Char) : wsOnlySpace (cleanL cs) :=
  fun c hc hw => collapseWs_wsOnlySpace cs c (trimWs_subset _ hc) hw

theorem cleanL_noAdjWs (cs : List Char) : noAdjWs (cleanL cs) := by
  unfold cleanL trimWs
  exact noAdjWs_reverse (noAdjWs_dropWhile _ (noAdjWs_reverse
    (noAdjWs_dropWhile _ (collapseWs_noAdjWs cs))))

theorem cleanL_last (cs : List Char) : ∀ c ∈ (cleanL cs).getLast?, isWs c = false := by
  intro c hc
  unfold cleanL trimWs at hc
  rw [List.getLast?_reverse] at hc
  exact dropWhile_head_not isWs _ c hc

theorem cleanL_head (cs : List Char) : ∀ c ∈ (cleanL cs).head?, isWs c = false := by
  intro c hc
  unfold cleanL trimWs at hc
  rw [List.head?_reverse] at hc
  set z := ((collapseWs cs).dropWhile isWs).reverse with hz
  rcases hdw : z.dropWhile isWs with _ | ⟨b, rest⟩
  · rw [hdw] at hc; simp at hc
  · rw [hdw] at hc
    have hsuff : z.dropWhile isWs <:+ z := List.dropWhile_suffix isWs
    rw [hdw] at hsuff
    obtain ⟨t, ht⟩ := hsuff
    have : z.getLast? = (b :: rest).getLast? := by
      rw [← ht]
      exact List.getLast?_append_of_ne_nil t (show (b :: rest) ≠ [] by simp)
    have hcz : c ∈ z.getLast? := by rw [this]; exact hc
    rw [hz, List.getLast?_reverse] at hcz
    exact dropWhile_head_not isWs _ c hcz

theorem cleanL_idem (cs : List Char) : cleanL (cleanL cs) = cleanL cs := by
  show trimWs (collapseWs (cleanL cs)) = cleanL cs
  rw [collapseWs_eq_self _ (cleanL_wsOnlySpace cs) (cleanL_noAdjWs cs)]
  exact trimWs_eq_self (cleanL_head cs) (cleanL_last cs)

theorem cleanL_eq_self_of_no_ws {cs : List Char} (h : ∀ c ∈ cs, isWs c = false) :
    cleanL cs = cs := by
  show trimWs (collapseWs cs) = cs
  rw [collapseWs_eq_self cs (fun c hc hw => absurd hw (by simp [h c hc]))
    (noAdjWs_of_no_ws cs h)]
  exact trimWs_eq_self
    (fun c hc => h c (List.mem_of_mem_head? hc))
    (fun c hc => h c (mem_of_mem_getLastQ hc))

/-! ## Leftmost-match search -/

theorem searchO_eq_some_of_head {α : Type} {core : List Char → Option α} {cs : List Char}
    {r : α} (h : core cs = some r) : searchO core cs = some r := by
  cases cs with
  | nil => simpa [searchO] using h
  | cons c rest => simp [searchO, h]

theorem searchO_some_suffix {α : Type} {core : List Char → Option α} :
    ∀ {cs : List Char} {r : α}, searchO core cs = some r →
      ∃ l, l <:+ cs ∧ core l = some r := by
  intro cs
  induction cs with
  | nil =>
    intro r h
    exact ⟨[], List.suffix_refl _, by simpa [searchO] using h⟩
  | cons c rest ih =>
    intro r h
    simp only [searchO] at h
    rcases hc : core (c :: rest) with _ | r2 <;> rw [hc] at h
    · obtain ⟨l, hl, hcore⟩ := ih h
      exact ⟨l, hl.trans (List.suffix_cons c rest), hcore⟩
    · obtain rfl := Option.some.inj h
      exact ⟨c :: rest, List.suffix_refl _, hc⟩

theorem searchO_eq_none {α : Type} {core : List Char → Option α} :
    ∀ {cs : List Char}, (∀ l, l <:+ cs → core l = none) → searchO core cs = none := by
  intro cs
  induction cs with
  | nil =>
    intro h
    simpa [searchO] using h [] (List.suffix_refl _)
  | cons c rest ih =>
    intro h
    have h1 := h (c :: rest) (List.suffix_refl _)
    simp only [searchO, h1]
    exact ih (fun l hl => h l (hl.trans (List.suffix_cons c rest)))

/-! ## Dot-digit scanning: refuting the numeric patterns wholesale -/

theorem isDigitC_dot : isDigitC '.' = false := by decide

theorem dotDigitB_cons {l : List Char} (c : Char) (h : dotDigitB l = true) :
    dotDigitB (c :: l) = true := by
  cases l with
  | nil => simp [dotDigitB] at h
  | cons b rest => simp [dotDigitB, h]

theorem dotDigitB_suffix : ∀ {l cs : List Char}, l <:+ cs → dotDigitB l = true →
    dotDigitB cs = true := by
  intro l cs h hd
  obtain ⟨t, rfl⟩ := h
  induction t with
  | nil => simpa using hd
  | cons a t ih => exact dotDigitB_cons a ih

theorem noDots_append : ∀ (xs ys : List Char), (∀ c ∈ xs, (c == '.') = false) →
    dotDigitB (xs ++ ys) = dotDigitB ys := by
  intro xs
  induction xs with
  | nil => intro ys _; rfl
  | cons a xs ih =>
    intro ys h
    have ha : (a == '.') = false := h a (by simp)
    rcases hxy : xs ++ ys with _ | ⟨b, rest⟩
    · obtain ⟨hxs, hys⟩ := List.append_eq_nil.1 hxy
      rw [List.cons_append, hxy, hys]
      simp [dotDigitB]
    · rw [List.cons_append, hxy]
      show (((a == '.') && isDigitC b) || dotDigitB (b :: rest)) = dotDigitB ys
      rw [ha]
      simp only [Bool.false_and, Bool.false_or]
      rw [← hxy]
      exact ih ys (fun c hc => h c (by simp [hc]))

theorem dotDigitB_eq_false (cs : List Char) (h : ∀ c ∈ cs, (c == '.') = false) :
    dotDigitB cs = false := by
  have := noDots_append cs [] h
  simpa using this

theorem dotDigitB_mem_dot : ∀ {cs : List Char}, dotDigitB cs = true → '.' ∈ cs := by
  intro cs
  induction cs with
  | nil => intro h; simp [dotDigitB] at h
  | cons a rest ih =>
    intro h
    cases rest with
    | nil => simp [dotDigitB] at h
    | cons b rest2 =>
      simp only [dotDigitB, Bool.or_eq_true, Bool.and_eq_true] at h
      rcases h with ⟨ha, _⟩ | h2
      · rw [beq_iff_eq] at ha
        rw [← ha]
        simp
      · exact List.mem_cons_of_mem a (ih h2)

/-! ## Capture-shape facts for the numeric pieces -/

theorem takeDigit2or1_some : ∀ {cs d r : List Char},
    takeDigit2or1 cs = some (d, r) →
    (∃ a, isDigitC a = true ∧ d = [a] ∧ cs = a :: r) ∨
    (∃ a b, isDigitC a = true ∧ isDigitC b = true ∧ d = [a, b] ∧ cs = a :: b :: r) := by
  intro cs d r h
  rcases cs with _ | ⟨a, _ | ⟨b, rest⟩⟩
  · simp [takeDigit2or1] at h
  · by_cases ha : isDigitC a = true
    · simp only [takeDigit2or1, if_pos ha, Option.some.injEq, Prod.mk.injEq] at h
      exact Or.inl ⟨a, ha, h.1.symm, by rw [← h.2]⟩
    · simp [takeDigit2or1, ha] at h
  · by_cases ha : isDigitC a = true
    · by_cases hb : isDigitC b = true
      · simp only [takeDigit2or1, if_pos ha, if_pos hb, Option.some.injEq,
          Prod.mk.injEq] at h
        exact Or.inr ⟨a, b, ha, hb, h.1.symm, by rw [← h.2]⟩
      · simp only [takeDigit2or1, if_pos ha, if_neg hb, Option.some.injEq,
          Prod.mk.injEq] at h
        exact Or.inl ⟨a, ha, h.1.symm, by rw [← h.2]⟩
    · simp [takeDigit2or1, ha] at h

theorem takeDigits4_some : ∀ {cs y r : List Char}, takeDigits4 cs = some (y, r) →
    ∃ a b c d, isDigitC a = true ∧ isDigitC b = true ∧ isDigitC c = true ∧
      isDigitC d = true ∧ y = [a, b, c, d] ∧ cs = a :: b :: c :: d :: r := by
  intro cs y r h
  rcases cs with _ | ⟨a, _ | ⟨b, _ | ⟨c, _ | ⟨d, rest⟩⟩⟩⟩
  · simp [takeDigits4] at h
  · simp [takeDigits4] at h
  · simp [takeDigits4] at h
  · simp [takeDigits4] at h
  · by_cases hd : (isDigitC a && isDigitC b && isDigitC c && isDigitC d) = true
    · simp only [takeDigits4, if_pos hd, Option.some.injEq, Prod.mk.injEq] at h
      simp only [Bool.and_eq_true] at hd
      exact ⟨a, b, c, d, hd.1.1.1, hd.1.1.2, hd.1.2, hd.2, h.1.symm, by rw [← h.2]⟩
    · simp [takeDigits4, hd] at h

theorem expectDot_some {cs r : List Char} (h : expectDot cs = some r) : cs = '.' :: r := by
  rcases cs with _ | ⟨c, rest⟩
  · simp [expectDot] at h
  · by_cases hc : c = '.'
    · subst hc
      simp only [expectDot, if_true, Option.some.injEq] at h
      rw [h]
    · simp [expectDot, hc] at h

theorem skipOptDot_suffix (cs : List Char) : skipOptDot cs <:+ cs := by
  rcases cs with _ | ⟨c, rest⟩
  · exact List.suffix_refl _
  · by_cases h : c = '.'
    · rw [skipOptDot, if_pos h]
      exact List.suffix_cons c rest
    · rw [skipOptDot, if_neg h]

/-! ## Forward facts: a matching numeric core crosses a dot into a digit -/

theorem coreNumEnd_dot {cs : List Char} {x : List Char × List Char × List Char}
    (h : coreNumEnd cs = some x) : dotDigitB cs = true := by
  rcases h1 : takeDigit2or1 cs with _ | ⟨d, r1⟩
  · simp [coreNumEnd, h1] at h
  · rcases h2 : expectDot r1 with _ | r2
    · simp [coreNumEnd, h1, h2] at h
    · rcases h3 : takeDigit2or1 r2 with _ | ⟨m, r3⟩
      · simp [coreNumEnd, h1, h2, h3] at h
      · have hdot := expectDot_some h2
        rcases takeDigit2or1_some h3 with ⟨m0, hm0, _, hr2⟩ | ⟨m0, m1, hm0, _, _, hr2⟩ <;>
          rcases takeDigit2or1_some h1 with ⟨a, _, _, hcs⟩ | ⟨a, b, _, _, _, hcs⟩ <;>
          rw [hcs, hdot, hr2] <;>
          simp [dotDigitB, hm0, isDigitC_dot]

theorem coreNumAny_dot {cs : List Char} {x : List Char × List Char × List Char}
    (h : coreNumAny cs = some x) : dotDigitB cs = true := by
  rcases h1 : takeDigit2or1 cs with _ | ⟨d, r1⟩
  · simp [coreNumAny, h1] at h
  · rcases h2 : expectDot r1 with _ | r2
    · simp [coreNumAny, h1, h2] at h
    · rcases h3 : takeDigit2or1 r2 with _ | ⟨m, r3⟩
      · simp [coreNumAny, h1, h2, h3] at h
      · have hdot := expectDot_some h2
        rcases takeDigit2or1_some h3 with ⟨m0, hm0, _, hr2⟩ | ⟨m0, m1, hm0, _, _, hr2⟩ <;>
          rcases takeDigit2or1_some h1 with ⟨a, _, _, hcs⟩ | ⟨a, b, _, _, _, hcs⟩ <;>
          rw [hcs, hdot, hr2] <;>
          simp [dotDigitB, hm0, isDigitC_dot]

theorem coreNumOpt_dot {cs : List Char} {x : List Char × List Char × Option (List Char)}
    (h : coreNumOpt cs = some x) : dotDigitB cs = true := by
  rcases h1 : takeDigit2or1 cs with _ | ⟨d, r1⟩
  · simp [coreNumOpt, h1] at h
  · rcases h2 : expectDot r1 with _ | r2
    · simp [coreNumOpt, h1, h2] at h
    · rcases h3 : takeDigit2or1 r2 with _ | ⟨m, r3⟩
      · simp [coreNumOpt, h1, h2, h3] at h
      · have hdot := expectDot_some h2
        rcases takeDigit2or1_some h3 with ⟨m0, hm0, _, hr2⟩ | ⟨m0, m1, hm0, _, _, hr2⟩ <;>
          rcases takeDigit2or1_some h1 with ⟨a, _, _, hcs⟩ | ⟨a, b, _, _, _, hcs⟩ <;>
          rw [hcs, hdot, hr2] <;>
          simp [dotDigitB, hm0, isDigitC_dot]

theorem coreAbbrevDay_dot {cs : List Char} {x : List Char × List Char × Option (List Char)}
    (h : coreAbbrevDay cs = some x) : dotDigitB cs = true := by
  rcases cs with _ | ⟨a, _ | ⟨b, rest⟩⟩
  · simp [coreAbbrevDay] at h
  · simp [coreAbbrevDay] at h
  · by_cases hab : (isAbbrevChar a && isAbbrevChar b) = true
    · have key : ∀ r1 : List Char, r1 <:+ rest →
          coreNumOpt ((skipOptDot r1).dropWhile isWs) = some x →
          dotDigitB (a :: b :: rest) = true := by
        intro r1 hr1 hco
        have hsuffix : ((skipOptDot r1).dropWhile isWs) <:+ (a :: b :: rest) :=
          (List.dropWhile_suffix isWs).trans ((skipOptDot_suffix r1).trans
            (hr1.trans ((List.suffix_cons b rest).trans
              (List.suffix_cons a (b :: rest)))))
        exact dotDigitB_suffix hsuffix (coreNumOpt_dot hco)
      rcases rest with _ | ⟨c, rest2⟩
      · simp only [coreAbbrevDay, if_pos hab] at h
        exact key [] (List.suffix_refl _) h
      · by_cases hc : isAbbrevChar c = true
        · simp only [coreAbbrevDay, if_pos hab, if_pos hc] at h
          exact key rest2 (List.suffix_cons c rest2) h
        · simp only [coreAbbrevDay, if_pos hab, if_neg hc] at h
          exact key (c :: rest2) (List.suffix_refl _) h
    · simp [coreAbbrevDay, hab] at h

theorem coreMonthName_ws {cs : List Char} {x : List Char × List Char × List Char}
    (h : coreMonthName cs = some x) : ∃ c ∈ cs, isWs c = true := by
  rcases h1 : takeDigit2or1 cs with _ | ⟨d, r1⟩
  · simp [coreMonthName, h1] at h
  · rcases h2 : skipOptDot r1 with _ | ⟨c, rest⟩
    · simp [coreMonthName, h1, h2] at h
    · by_cases hc : isWs c = true
      · have hmem : c ∈ skipOptDot r1 := by rw [h2]; simp
        have hr1 : c ∈ r1 := (skipOptDot_suffix r1).subset hmem
        have hmemcs : c ∈ cs := by
          rcases takeDigit2or1_some h1 with ⟨a, _, _, hcs⟩ | ⟨a, b, _, _, _, hcs⟩ <;>
            rw [hcs] <;> simp [hr1]
        exact ⟨c, hmemcs, hc⟩
      · simp [coreMonthName, h1, h2, hc] at h

/-! ## Search-failure wrappers -/

theorem searchO_none_of_dotFree {α : Type} {core : List Char → Option α}
    (hfwd : ∀ (l : List Char) (x : α), core l = some x → dotDigitB l = true)
    {cs : List Char} (h : dotDigitB cs = false) : searchO core cs = none := by
  apply searchO_eq_none
  intro l hl
  rcases hx : core l with _ | x
  · rfl
  · have hdd := dotDigitB_suffix hl (hfwd l x hx)
    rw [h] at hdd
    exact Bool.noConfusion hdd

theorem searchO_monthName_none {cs : List Char}
    (h : ∀ c ∈ cs, isWs c = false) : searchO coreMonthName cs = none := by
  apply searchO_eq_none
  intro l hl
  rcases hx : coreMonthName l with _ | x
  · rfl
  · obtain ⟨c, hmem, hws⟩ := coreMonthName_ws hx
    have := h c (hl.subset hmem)
    rw [this] at hws
    exact Bool.noConfusion hws

/-! ## Lowercasing facts -/

theorem uppercaseMap_facts : ∀ p ∈ uppercaseMap,
    isWs p.1 = false ∧ isWs p.2 = false ∧ isDigitC p.1 = false ∧ isDigitC p.2 = false ∧
    (p.1 == '.') = false ∧ (p.2 == '.') = false ∧ isMonthChar p.2 = true := by decide

theorem lowerChar_cases (c : Char) :
    lowerChar c = c ∨ ∃ p ∈ uppercaseMap, p.1 = c ∧ lowerChar c = p.2 := by
  rcases hf : uppercaseMap.find? (fun p => p.1 == c) with _ | p
  · left
    simp [lowerChar, hf]
  · right
    have h2 := List.find?_some hf
    simp only [beq_iff_eq] at h2
    exact ⟨p, List.mem_of_find?_eq_some hf, h2, by simp [lowerChar, hf]⟩

theorem isWs_lowerChar (c : Char) : isWs (lowerChar c) = isWs c := by
  rcases lowerChar_cases c with h | ⟨p, hp, hpc, h⟩
  · rw [h]
  · have hf := uppercaseMap_facts p hp
    rw [h, ← hpc, hf.1, hf.2.1]

theorem monthChar_lower_src {c : Char} (h : isMonthChar (lowerChar c) = true) :
    isWs c = false ∧ (c == '.') = false ∧ isDigitC c = false := by
  rcases lowerChar_cases c with hl | ⟨p, hp, hpc, hl⟩
  · rw [hl] at h
    exact ⟨not_ws_of_monthChar h, ne_dot_of_monthChar h, not_digit_of_monthChar h⟩
  · have hf := uppercaseMap_facts p hp
    rw [← hpc]
    exact ⟨hf.1, hf.2.2.2.2.1, hf.2.2.1⟩

theorem lowerChar_of_digit {c : Char} (h : isDigitC c = true) : lowerChar c = c := by
  rcases lowerChar_cases c with hl | ⟨p, hp, hpc, hl⟩
  · exact hl
  · have hf := uppercaseMap_facts p hp
    rw [← hpc] at h
    rw [hf.2.2.1] at h
    exact Bool.noConfusion h

theorem lowerL_digits {l : List Char} (h : ∀ c ∈ l, isDigitC c = true) :
    lowerL l = l := by
  unfold lowerL
  induction l with
  | nil => rfl
  | cons a rest ih =>
    rw [List.map_cons, lowerChar_of_digit (h a (by simp)),
      ih (fun c hc => h c (by simp [hc]))]

/-! ## Capture shapes of successful cores -/

theorem takeDigit2or1_capture {cs d r : List Char} (h : takeDigit2or1 cs = some (d, r)) :
    digitCapture d := by
  rcases takeDigit2or1_some h with ⟨a, ha, hd, _⟩ | ⟨a, b, ha, hb, hd, _⟩
  · subst hd
    exact ⟨fun c hc => by rw [List.mem_singleton] at hc; rw [hc]; exact ha, Or.inl rfl⟩
  · subst hd
    refine ⟨fun c hc => ?_, Or.inr rfl⟩
    rcases List.mem_cons.1 hc with rfl | hc2
    · exact ha
    · rw [List.mem_singleton] at hc2
      rw [hc2]
      exact hb

theorem takeDigits4_capture {cs y r : List Char} (h : takeDigits4 cs = some (y, r)) :
    digitCapture4 y := by
  obtain ⟨a, b, c, d, ha, hb, hc2, hd2, hy, _⟩ := takeDigits4_some h
  subst hy
  refine ⟨fun e he => ?_, rfl⟩
  simp only [List.mem_cons, List.mem_singleton, List.not_mem_nil, or_false] at he
  rcases he with rfl | rfl | rfl | rfl <;> assumption

theorem coreNumEnd_shape {cs d m y : List Char} (h : coreNumEnd cs = some (d, m, y)) :
    digitCapture d ∧ digitCapture m ∧ digitCapture4 y := by
  rcases h1 : takeDigit2or1 cs with _ | ⟨d0, r1⟩
  · simp [coreNumEnd, h1] at h
  · rcases h2 : expectDot r1 with _ | r2
    · simp [coreNumEnd, h1, h2] at h
    · rcases h3 : takeDigit2or1 r2 with _ | ⟨m0, r3⟩
      · simp [coreNumEnd, h1, h2, h3] at h
      · rcases h4 : expectDot r3 with _ | r4
        · simp [coreNumEnd, h1, h2, h3, h4] at h
        · rcases h5 : takeDigits4 r4 with _ | ⟨y0, r5⟩
          · simp [coreNumEnd, h1, h2, h3, h4, h5] at h
          · by_cases he : r5.isEmpty = true
            · simp only [coreNumEnd, h1, h2, h3, h4, h5, if_pos he,
                Option.some.injEq, Prod.mk.injEq] at h
              obtain ⟨hd, hm, hy⟩ := h
              subst hd; subst hm; subst hy
              exact ⟨takeDigit2or1_capture h1, takeDigit2or1_capture h3,
                takeDigits4_capture h5⟩
            · simp [coreNumEnd, h1, h2, h3, h4, h5, he] at h

theorem coreNumAny_shape {cs d m y : List Char} (h : coreNumAny cs = some (d, m, y)) :
    digitCapture d ∧ digitCapture m ∧ digitCapture4 y := by
  rcases h1 : takeDigit2or1 cs with _ | ⟨d0, r1⟩
  · simp [coreNumAny, h1] at h
  · rcases h2 : expectDot r1 with _ | r2
    · simp [coreNumAny, h1, h2] at h
    · rcases h3 : takeDigit2or1 r2 with _ | ⟨m0, r3⟩
      · simp [coreNumAny, h1, h2, h3] at h
      · rcases h4 : expectDot r3 with _ | r4
        · simp [coreNumAny, h1, h2, h3, h4] at h
        · rcases h5 : takeDigits4 r4 with _ | ⟨y0, r5⟩
          · simp [coreNumAny, h1, h2, h3, h4, h5] at h
          · simp only [coreNumAny, h1, h2, h3, h4, h5,
              Option.some.injEq, Prod.mk.injEq] at h
            obtain ⟨hd, hm, hy⟩ := h
            subst hd; subst hm; subst hy
            exact ⟨takeDigit2or1_capture h1, takeDigit2or1_capture h3,
              takeDigits4_capture h5⟩

theorem coreNumOpt_shape {cs d m : List Char} {yO : Option (List Char)}
    (h : coreNumOpt cs = some (d, m, yO)) :
    digitCapture d ∧ digitCapture m ∧ ∀ y ∈ yO, digitCapture4 y := by
  rcases h1 : takeDigit2or1 cs with _ | ⟨d0, r1⟩
  · simp [coreNumOpt, h1] at h
  · rcases h2 : expectDot r1 with _ | r2
    · simp [coreNumOpt, h1, h2] at h
    · rcases h3 : takeDigit2or1 r2 with _ | ⟨m0, r3⟩
      · simp [coreNumOpt, h1, h2, h3] at h
      · rcases h4 : expectDot r3 with _ | r4
        · simp [coreNumOpt, h1, h2, h3, h4] at h
        · rcases h5 : takeDigits4 r4 with _ | ⟨y0, r5⟩
          · simp only [coreNumOpt, h1, h2, h3, h4, h5,
              Option.some.injEq, Prod.mk.injEq] at h
            obtain ⟨hd, hm, hy⟩ := h
            subst hd; subst hm; subst hy
            exact ⟨takeDigit2or1_capture h1, takeDigit2or1_capture h3, by simp⟩
          · simp only [coreNumOpt, h1, h2, h3, h4, h5,
              Option.some.injEq, Prod.mk.injEq] at h
            obtain ⟨hd, hm, hy⟩ := h
            subst hd; subst hm; subst hy
            refine ⟨takeDigit2or1_capture h1, takeDigit2or1_capture h3, ?_⟩
            intro y hy
            rw [Option.mem_def, Option.some.injEq] at hy
            subst hy
            exact takeDigits4_capture h5

theorem coreAbbrevDay_inner {cs : List Char} {x : List Char × List Char × Option (List Char)}
    (h : coreAbbrevDay cs = some x) : ∃ l, coreNumOpt l = some x := by
  rcases cs with _ | ⟨a, _ | ⟨b, rest⟩⟩
  · simp [coreAbbrevDay] at h
  · simp [coreAbbrevDay] at h
  · by_cases hab : (isAbbrevChar a && isAbbrevChar b) = true
    · rcases rest with _ | ⟨c, rest2⟩
      · simp only [coreAbbrevDay, if_pos hab] at h
        exact ⟨_, h⟩
      · by_cases hc : isAbbrevChar c = true
        · simp only [coreAbbrevDay, if_pos hab, if_pos hc] at h
          exact ⟨_, h⟩
        · simp only [coreAbbrevDay, if_pos hab, if_neg hc] at h
          exact ⟨_, h⟩
    · simp [coreAbbrevDay, hab] at h

theorem coreAbbrevDay_shape {cs d m : List Char} {yO : Option (List Char)}
    (h : coreAbbrevDay cs = some (d, m, yO)) :
    digitCapture d ∧ digitCapture m ∧ ∀ y ∈ yO, digitCapture4 y := by
  obtain ⟨l, hl⟩ := coreAbbrevDay_inner h
  exact coreNumOpt_shape hl

theorem coreMonthName_shape {cs d name y : List Char}
    (h : coreMonthName cs = some (d, name, y)) : digitCapture d ∧ digitCapture4 y := by
  rcases h1 : takeDigit2or1 cs with _ | ⟨d0, r1⟩
  · simp [coreMonthName, h1] at h
  · rcases h2 : skipOptDot r1 with _ | ⟨c, rest⟩
    · simp [coreMonthName, h1, h2] at h
    · by_cases hc : isWs c = true
      · by_cases hname : ((rest.dropWhile isWs).takeWhile isMonthChar).isEmpty = true
        · simp [coreMonthName, h1, h2, hc, hname] at h
        · rcases h3 : skipOptDot ((rest.dropWhile isWs).dropWhile isMonthChar)
            with _ | ⟨c2, rest2⟩
          · simp [coreMonthName, h1, h2, hc, hname, h3] at h
          · by_cases hc2 : isWs c2 = true
            · rcases h4 : takeDigits4 (rest2.dropWhile isWs) with _ | ⟨y0, r5⟩
              · simp [coreMonthName, h1, h2, hc, hname, h3, hc2, h4] at h
              · simp only [coreMonthName, h1, h2, if_pos hc, if_neg hname, h3,
                  if_pos hc2, h4, Option.some.injEq, Prod.mk.injEq] at h
                obtain ⟨hd, -, hy⟩ := h
                subst hd; subst hy
                exact ⟨takeDigit2or1_capture h1, takeDigits4_capture h4⟩
            · simp [coreMonthName, h1, h2, hc, hname, h3, hc2] at h
      · simp [coreMonthName, h1, h2, hc] at h

/-! ## Output shapes of the pattern cascade -/

theorem pad2_capture {d : List Char} (h : digitCapture d) :
    ∃ a b, pad2 d = [a, b] ∧ isDigitC a = true ∧ isDigitC b = true := by
  obtain ⟨hmem, hlen⟩ := h
  rcases hlen with h1 | h2
  · obtain ⟨a, ha⟩ := List.length_eq_one.1 h1
    subst ha
    exact ⟨'0', a, rfl, by decide, hmem a (by simp)⟩
  · obtain ⟨a, b, hab⟩ := List.length_eq_two.1 h2
    subst hab
    exact ⟨a, b, rfl, hmem a (by simp), hmem b (by simp)⟩

theorem digitCapture4_shape {y : List Char} (h : digitCapture4 y) :
    ∃ a b c d, y = [a, b, c, d] ∧ isDigitC a = true ∧ isDigitC b = true ∧
      isDigitC c = true ∧ isDigitC d = true := by
  obtain ⟨hmem, hlen⟩ := h
  rcases y with _ | ⟨a, y⟩
  · simp at hlen
  rcases y with _ | ⟨b, y⟩
  · simp at hlen
  rcases y with _ | ⟨c, y⟩
  · simp at hlen
  rcases y with _ | ⟨d, y⟩
  · simp at hlen
  rcases y with _ | ⟨e, y⟩
  · exact ⟨a, b, c, d, rfl, hmem a (by simp), hmem b (by simp),
      hmem c (by simp), hmem d (by simp)⟩
  · simp only [List.length_cons] at hlen
    omega

theorem lookupMonth_digits {k mm : String} (h : lookupMonth k = some mm) :
    mm.data.length = 2 ∧ ∀ c ∈ mm.data, isDigitC c = true := by
  unfold lookupMonth at h
  rcases hf : monthNames.find? (fun p => p.1 == k) with _ | p
  · rw [hf] at h
    simp at h
  · rw [hf] at h
    simp only [Option.map_some', Option.some.injEq] at h
    subst h
    have hmem := List.mem_of_find?_eq_some hf
    have hfacts : ∀ q ∈ monthNames,
        q.2.data.length = 2 ∧ ∀ c ∈ q.2.data, isDigitC c = true := by decide
    exact hfacts p hmem

/-- The unified shape of every date the cascade produces:
`year-part ++ "-" ++ month-part ++ "-" ++ padded-day`, with all-digit pieces,
plus the fact that the matched input had to contain a dot-digit pair or a
whitespace character. -/
theorem matchChain_some_elim {yd cs out : List Char}
    (h : matchChain yd cs = some out) :
    ∃ d yv mid, digitCapture d ∧
      (∀ c ∈ yv, isDigitC c = true ∨ c ∈ yd) ∧ (yv.length = 4 ∨ yv = yd) ∧
      (mid.length = 2 ∧ ∀ c ∈ mid, isDigitC c = true) ∧
      out = yv ++ '-' :: (mid ++ '-' :: pad2 d) ∧
      (dotDigitB cs = true ∨ ∃ c ∈ cs, isWs c = true) := by
  rcases h1 : searchO coreNumEnd cs with _ | ⟨d, m, y⟩
  · rcases h2 : searchO coreNumAny cs with _ | ⟨d, m, y⟩
    · rcases h3 : searchO coreNumOpt cs with _ | ⟨d, m, yO⟩
      · rcases h4 : searchO coreAbbrevDay cs with _ | ⟨d, m, yO⟩
        · rcases h5 : searchO coreMonthName (lowerL cs) with _ | ⟨d, name, y⟩
          · simp [matchChain, h1, h2, h3, h4, h5] at h
          · rcases h6 : lookupMonth (String.mk (lowerL name)) with _ | mm
            · simp [matchChain, h1, h2, h3, h4, h5, h6] at h
            · simp only [matchChain, h1, h2, h3, h4, h5, h6, Option.some.injEq] at h
              subst h
              obtain ⟨l, hl, hcore⟩ := searchO_some_suffix h5
              obtain ⟨hdc, hy4⟩ := coreMonthName_shape hcore
              obtain ⟨c, hcmem, hcws⟩ := coreMonthName_ws hcore
              have hcl : c ∈ lowerL cs := hl.subset hcmem
              obtain ⟨c0, hc0, hc0l⟩ := List.mem_map.1 hcl
              refine ⟨d, y, mm.data, hdc, fun c2 hc2 => Or.inl (hy4.1 c2 hc2),
                Or.inl hy4.2, ⟨(lookupMonth_digits h6).1, (lookupMonth_digits h6).2⟩,
                rfl, Or.inr ⟨c0, hc0, ?_⟩⟩
              rw [← isWs_lowerChar c0, hc0l]
              exact hcws
        · obtain ⟨l, hl, hcore⟩ := searchO_some_suffix h4
          obtain ⟨hdc, hmc, hyO⟩ := coreAbbrevDay_shape hcore
          have hdot : dotDigitB cs = true :=
            dotDigitB_suffix hl (coreAbbrevDay_dot hcore)
          obtain ⟨m1, m2, hm2, hmd1, hmd2⟩ := pad2_capture hmc
          rcases yO with _ | yv
          · simp only [matchChain, h1, h2, h3, h4, Option.some.injEq] at h
            subst h
            refine ⟨d, yd, pad2 m, hdc, fun c2 hc2 => Or.inr hc2, Or.inr rfl, ?_,
              rfl, Or.inl hdot⟩
            rw [hm2]
            exact ⟨rfl, fun c2 hc2 => by
              rcases List.mem_cons.1 hc2 with rfl | hc3
              · exact hmd1
              · rw [List.mem_singleton] at hc3; rw [hc3]; exact hmd2⟩
          · simp only [matchChain, h1, h2, h3, h4, Option.some.injEq] at h
            subst h
            have hy4 := hyO yv rfl
            refine ⟨d, yv, pad2 m, hdc, fun c2 hc2 => Or.inl (hy4.1 c2 hc2),
              Or.inl hy4.2, ?_, rfl, Or.inl hdot⟩
            rw [hm2]
            exact ⟨rfl, fun c2 hc2 => by
              rcases List.mem_cons.1 hc2 with rfl | hc3
              · exact hmd1
              · rw [List.mem_singleton] at hc3; rw [hc3]; exact hmd2⟩
      · obtain ⟨l, hl, hcore⟩ := searchO_some_suffix h3
        obtain ⟨hdc, hmc, hyO⟩ := coreNumOpt_shape hcore
        have hdot : dotDigitB cs = true := dotDigitB_suffix hl (coreNumOpt_dot hcore)
        obtain ⟨m1, m2, hm2, hmd1, hmd2⟩ := pad2_capture hmc
        rcases yO with _ | yv
        · simp only [matchChain, h1, h2, h3, Option.some.injEq] at h
          subst h
          refine ⟨d, yd, pad2 m, hdc, fun c2 hc2 => Or.inr hc2, Or.inr rfl, ?_, rfl,
            Or.inl hdot⟩
          rw [hm2]
          exact ⟨rfl, fun c2 hc2 => by
            rcases List.mem_cons.1 hc2 with rfl | hc3
            · exact hmd1
            · rw [List.mem_singleton] at hc3; rw [hc3]; exact hmd2⟩
        · simp only [matchChain, h1, h2, h3, Option.some.injEq] at h
          subst h
          have hy4 := hyO yv rfl
          refine ⟨d, yv, pad2 m, hdc, fun c2 hc2 => Or.inl (hy4.1 c2 hc2),
            Or.inl hy4.2, ?_, rfl, Or.inl hdot⟩
          rw [hm2]
          exact ⟨rfl, fun c2 hc2 => by
            rcases List.mem_cons.1 hc2 with rfl | hc3
            · exact hmd1
            · rw [List.mem_singleton] at hc3; rw [hc3]; exact hmd2⟩
    · simp only [matchChain, h1, h2, Option.some.injEq] at h
      subst h
      obtain ⟨l, hl, hcore⟩ := searchO_some_suffix h2
      obtain ⟨hdc, hmc, hy4⟩ := coreNumAny_shape hcore
      have hdot : dotDigitB cs = true := dotDigitB_suffix hl (coreNumAny_dot hcore)
      obtain ⟨m1, m2, hm2, hmd1, hmd2⟩ := pad2_capture hmc
      refine ⟨d, y, pad2 m, hdc, fun c2 hc2 => Or.inl (hy4.1 c2 hc2),
        Or.inl hy4.2, ?_, rfl, Or.inl hdot⟩
      rw [hm2]
      exact ⟨rfl, fun c2 hc2 => by
        rcases List.mem_cons.1 hc2 with rfl | hc3
        · exact hmd1
        · rw [List.mem_singleton] at hc3; rw [hc3]; exact hmd2⟩
  · simp only [matchChain, h1, Option.some.injEq] at h
    subst h
    obtain ⟨l, hl, hcore⟩ := searchO_some_suffix h1
    obtain ⟨hdc, hmc, hy4⟩ := coreNumEnd_shape hcore
    have hdot : dotDigitB cs = true := dotDigitB_suffix hl (coreNumEnd_dot hcore)
    obtain ⟨m1, m2, hm2, hmd1, hmd2⟩ := pad2_capture hmc
    refine ⟨d, y, pad2 m, hdc, fun c2 hc2 => Or.inl (hy4.1 c2 hc2),
      Or.inl hy4.2, ?_, rfl, Or.inl hdot⟩
    rw [hm2]
    exact ⟨rfl, fun c2 hc2 => by
      rcases List.mem_cons.1 hc2 with rfl | hc3
      · exact hmd1
      · rw [List.mem_singleton] at hc3; rw [hc3]; exact hmd2⟩

theorem isIsoShape_build {yv mid d : List Char} (hy : digitCapture4 yv)
    (hmidlen : mid.length = 2) (hmid : ∀ c ∈ mid, isDigitC c = true)
    (hd : digitCapture d) :
    isIsoShape (String.mk (yv ++ '-' :: (mid ++ '-' :: pad2 d))) = true := by
  obtain ⟨y1, y2, y3, y4, hy4, hy1, hy2, hy3, hyd⟩ := digitCapture4_shape hy
  obtain ⟨m1, m2, hm2⟩ := List.length_eq_two.1 hmidlen
  obtain ⟨d1, d2, hd2, hdd1, hdd2⟩ := pad2_capture hd
  subst hy4
  subst hm2
  rw [hd2]
  have hm1d : isDigitC m1 = true := hmid m1 (by simp)
  have hm2d : isDigitC m2 = true := hmid m2 (by simp)
  show isIsoShape (String.mk [y1, y2, y3, y4, '-', m1, m2, '-', d1, d2]) = true
  simp [isIsoShape, hy1, hy2, hy3, hyd, hm1d, hm2d, hdd1, hdd2]

theorem matchChain_iso {yd cs out : List Char} (hyd : digitCapture4 yd)
    (h : matchChain yd cs = some out) : isIsoShape (String.mk out) = true := by
  obtain ⟨d, yv, mid, hd, hyv, hlen, ⟨hmidlen, hmid⟩, hout, -⟩ := matchChain_some_elim h
  subst hout
  have hyv4 : digitCapture4 yv := by
    refine ⟨fun c hc => ?_, ?_⟩
    · rcases hyv c hc with h1 | h2
      · exact h1
      · exact hyd.1 c h2
    · rcases hlen with h1 | rfl
      · exact h1
      · exact hyd.2
  exact isIsoShape_build hyv4 hmidlen hmid hd

theorem matchChain_chars {yd cs out : List Char} (hyd : ∀ c ∈ yd, isDigitC c = true)
    (h : matchChain yd cs = some out) : ∀ c ∈ out, isDigitC c = true ∨ c = '-' := by
  obtain ⟨d, yv, mid, hd, hyv, -, ⟨-, hmid⟩, hout, -⟩ := matchChain_some_elim h
  subst hout
  intro c hc
  obtain ⟨d1, d2, hd2, hdd1, hdd2⟩ := pad2_capture hd
  rw [hd2] at hc
  simp only [List.mem_append, List.mem_cons, List.mem_singleton,
    List.not_mem_nil, or_false] at hc
  rcases hc with hc | hc | hc | hc | hc | hc
  · rcases hyv c hc with h1 | h2
    · exact Or.inl h1
    · exact Or.inl (hyd c h2)
  · exact Or.inr hc
  · exact Or.inl (hmid c hc)
  · exact Or.inr hc
  · rw [hc]; exact Or.inl hdd1
  · rw [hc]; exact Or.inl hdd2

theorem matchChain_out_ne {yd cs out : List Char} (hyd : ∀ c ∈ yd, isDigitC c = true)
    (h : matchChain yd cs = some out) : out ≠ [] ∧ out ≠ cs := by
  have hchars := matchChain_chars hyd h
  obtain ⟨d, yv, mid, -, -, -, -, hout, hdw⟩ := matchChain_some_elim h
  constructor
  · rw [hout]
    intro hnil
    exact absurd (List.append_eq_nil.1 hnil).2 (by simp)
  · intro heq
    have hnodot : ('.' : Char) ∉ out := by
      intro hmem
      rcases hchars '.' hmem with h1 | h2
      · exact absurd h1 (by decide)
      · exact absurd h2 (by decide)
    have hnows : ∀ c ∈ out, isWs c = false := by
      intro c hc
      rcases hchars c hc with h1 | h2
      · exact not_ws_of_digit h1
      · rw [h2]; decide
    rcases hdw with hdot | ⟨c, hcmem, hcws⟩
    · exact hnodot (by rw [heq]; exact dotDigitB_mem_dot hdot)
    · have hcf := hnows c (by rw [heq]; exact hcmem)
      rw [hcf] at hcws
      exact Bool.noConfusion hcws

theorem matchChain_isSome_indep (yd1 yd2 cs : List Char) :
    (matchChain yd1 cs).isSome = (matchChain yd2 cs).isSome := by
  rcases h1 : searchO coreNumEnd cs with _ | ⟨d, m, y⟩
  · rcases h2 : searchO coreNumAny cs with _ | ⟨d, m, y⟩
    · rcases h3 : searchO coreNumOpt cs with _ | ⟨d, m, yO⟩
      · rcases h4 : searchO coreAbbrevDay cs with _ | ⟨d, m, yO⟩
        · rcases h5 : searchO coreMonthName (lowerL cs) with _ | ⟨d, name, y⟩
          · simp [matchChain, h1, h2, h3, h4, h5]
          · rcases h6 : lookupMonth (String.mk (lowerL name)) with _ | mm
            · simp [matchChain, h1, h2, h3, h4, h5, h6]
            · simp [matchChain, h1, h2, h3, h4, h5, h6]
        · simp [matchChain, h1, h2, h3, h4]
      · simp [matchChain, h1, h2, h3]
    · simp [matchChain, h1, h2]
  · simp [matchChain, h1]

/-! ## Bridges between list level and string level -/

theorem extractDateL_cons {yd cs : List Char} (hne : cs ≠ []) :
    extractDateL yd cs = (matchChain yd (cleanL cs)).getD (cleanL cs) := by
  rcases cs with _ | ⟨c, rest⟩
  · exact absurd rfl hne
  · rfl

theorem string_mk_inj {a b : List Char} (h : String.mk a = String.mk b) : a = b := by
  cases h
  rfl

theorem string_ne_empty_iff {s : String} : s ≠ "" ↔ s.data ≠ [] := by
  cases s with
  | mk d =>
    constructor
    · intro h hd
      exact h (by rw [show d = ([] : List Char) from hd])
    · intro h he
      exact h (by rw [show String.mk d = "" from he])

theorem cleanL_eq_self_of_tidy {cs : List Char} (h1 : wsOnlySpace cs) (h2 : noAdjWs cs)
    (h3 : ∀ c ∈ cs.head?, isWs c = false) (h4 : ∀ c ∈ cs.getLast?, isWs c = false) :
    cleanL cs = cs := by
  show trimWs (collapseWs cs) = cs
  rw [collapseWs_eq_self cs h1 h2]
  exact trimWs_eq_self h3 h4

theorem takeWhile_all_append (p : Char → Bool) :
    ∀ (l : List Char) (x : Char) (t : List Char), (∀ c ∈ l, p c = true) → p x = false →
      (l ++ x :: t).takeWhile p = l ∧ (l ++ x :: t).dropWhile p = x :: t := by
  intro l
  induction l with
  | nil =>
    intro x t _ hx
    constructor
    · rw [List.nil_append, List.takeWhile_cons, if_neg (by simp [hx])]
    · rw [List.nil_append, List.dropWhile_cons, if_neg (by simp [hx])]
  | cons a l ih =>
    intro x t h hx
    have ha := h a (by simp)
    have ihh := ih x t (fun c hc => h c (by simp [hc])) hx
    constructor
    · rw [List.cons_append, List.takeWhile_cons, if_pos ha, ihh.1]
    · rw [List.cons_append, List.dropWhile_cons, if_pos ha, ihh.2]

theorem lowerChar_idem (c : Char) : lowerChar (lowerChar c) = lowerChar c := by
  rcases lowerChar_cases c with h | ⟨p, hp, hpc, h⟩
  · rw [h]
    exact h
  · have hfix : ∀ q ∈ uppercaseMap, lowerChar q.2 = q.2 := by decide
    rw [h]
    exact hfix p hp

theorem lowerL_idem (l : List Char) : lowerL (lowerL l) = lowerL l := by
  unfold lowerL
  rw [List.map_map]
  exact List.map_congr_left (fun c _ => lowerChar_idem c)

theorem isWs_space : isWs ' ' = true := by decide

theorem isDigitC_space : isDigitC ' ' = false := by decide

/-! ## Claim C9 -/

/-- C9: for every input text matched by none of the normalizer's date
patterns, `extractDateFromText` returns the cleaned input text unchanged and
(being a total function) never raises an error; in particular `""` maps to
`""` and `"free text"` maps to `"free text"` (see the witness). -/
theorem c9_no_pattern_returns_cleaned (y : Nat) (s : String)
    (h : datePatternFound (cleanL s.data) = false) :
    extractDateFromText y s = cleanText s := by
  obtain ⟨d⟩ := s
  replace h : datePatternFound (cleanL d) = false := h
  show String.mk (extractDateL (natChars y) d) = String.mk (cleanL d)
  rcases d with _ | ⟨c, rest⟩
  · rfl
  · rw [extractDateL_cons (by simp)]
    rcases hm : matchChain (natChars y) (cleanL (c :: rest)) with _ | out
    · simp
    · exfalso
      have hindep := matchChain_isSome_indep (natChars y) [] (cleanL (c :: rest))
      rw [hm] at hindep
      simp only [Option.isSome_some] at hindep
      unfold datePatternFound at h
      rw [← hindep] at h
      exact Bool.noConfusion h

/-- Witness for C9 at the spec's two examples, with current year 2025. -/
theorem c9_witness :
    extractDateFromText 2025 "" = "" ∧ extractDateFromText 2025 "free text" = "free text" := by
  constructor
  · have h := c9_no_pattern_returns_cleaned 2025 "" (by decide)
    rw [h]
    decide
  · have h := c9_no_pattern_returns_cleaned 2025 "free text" (by decide)
    rw [h]
    decide

/-! ## Claim C10 -/

/-- C10: strings already in `YYYY-MM-DD` shape (four digits, hyphen, two
digits, hyphen, two digits, nothing else) are fixed points of the
normalizer: none of the five patterns can fire (they all need a dot or
whitespace), cleaning is the identity, so the input is returned unchanged. -/
theorem c10_iso_fixed_point (y : Nat) (y4 m2 d2 : List Char)
    (hy : y4.length = 4 ∧ ∀ c ∈ y4, isDigitC c = true)
    (hm : m2.length = 2 ∧ ∀ c ∈ m2, isDigitC c = true)
    (hd : d2.length = 2 ∧ ∀ c ∈ d2, isDigitC c = true) :
    extractDateFromText y (String.mk (y4 ++ '-' :: (m2 ++ '-' :: d2))) =
      String.mk (y4 ++ '-' :: (m2 ++ '-' :: d2)) := by
  set l := y4 ++ '-' :: (m2 ++ '-' :: d2) with hl
  have hmem : ∀ c ∈ l, isDigitC c = true ∨ c = '-' := by
    intro c hc
    rw [hl] at hc
    simp only [List.mem_append, List.mem_cons] at hc
    rcases hc with hc | hc | hc | hc | hc
    · exact Or.inl (hy.2 c hc)
    · exact Or.inr hc
    · exact Or.inl (hm.2 c hc)
    · exact Or.inr hc
    · exact Or.inl (hd.2 c hc)
  have hnows : ∀ c ∈ l, isWs c = false := by
    intro c hc
    rcases hmem c hc with h1 | h2
    · exact not_ws_of_digit h1
    · rw [h2]; decide
  have hnodot : ∀ c ∈ l, (c == '.') = false := by
    intro c hc
    rcases hmem c hc with h1 | h2
    · exact ne_dot_of_digit h1
    · rw [h2]; decide
  have hne : l ≠ [] := by
    intro hnil
    rw [hl] at hnil
    exact absurd (List.append_eq_nil.1 hnil).2 (by simp)
  have hclean : cleanL l = l := cleanL_eq_self_of_no_ws hnows
  have hdot : dotDigitB l = false := dotDigitB_eq_false l hnodot
  have s1 := searchO_none_of_dotFree (fun l2 x h2 => coreNumEnd_dot h2) hdot
  have s2 := searchO_none_of_dotFree (fun l2 x h2 => coreNumAny_dot h2) hdot
  have s3 := searchO_none_of_dotFree (fun l2 x h2 => coreNumOpt_dot h2) hdot
  have s4 := searchO_none_of_dotFree (fun l2 x h2 => coreAbbrevDay_dot h2) hdot
  have s5 : searchO coreMonthName (lowerL l) = none := by
    apply searchO_monthName_none
    intro c hc
    obtain ⟨c0, hc0, hc0l⟩ := List.mem_map.1 hc
    rw [← hc0l, isWs_lowerChar c0]
    exact hnows c0 hc0
  have hchain : matchChain (natChars y) l = none := by
    simp [matchChain, s1, s2, s3, s4, s5]
  show String.mk (extractDateL (natChars y) l) = String.mk l
  rw [extractDateL_cons hne, hclean, hchain]
  rfl

/-- Witness for C10 at `"2025-05-16"`. -/
theorem c10_witness : extractDateFromText 2025 "2025-05-16" = "2025-05-16" := by
  have h := c10_iso_fixed_point 2025 ['2', '0', '2', '5'] ['0', '5'] ['1', '6']
    ⟨rfl, by decide⟩ ⟨rfl, by decide⟩ ⟨rfl, by decide⟩
  have e : String.mk (['2', '0', '2', '5'] ++ '-' :: (['0', '5'] ++ '-' :: ['1', '6'])) =
      "2025-05-16" := by decide
  rw [e] at h
  exact h

/-! ## Claim C3 -/

/-- Pattern 1 (`DD.MM.YYYY` anchored at the end) matches a pure numeric date
string at position zero with the three components as captures. -/
theorem coreNumEnd_eval {d m yr : List Char}
    (hd : ∀ c ∈ d, isDigitC c = true) (hdl : d.length = 1 ∨ d.length = 2)
    (hm : ∀ c ∈ m, isDigitC c = true) (hml : m.length = 1 ∨ m.length = 2)
    (hyr : ∀ c ∈ yr, isDigitC c = true) (hyl : yr.length = 4) :
    coreNumEnd (d ++ '.' :: (m ++ '.' :: yr)) = some (d, m, yr) := by
  obtain ⟨y1, y2, y3, y4, hy4, hh1, hh2, hh3, hh4⟩ := digitCapture4_shape ⟨hyr, hyl⟩
  subst hy4
  rcases hdl with hdl | hdl
  · obtain ⟨a, ha⟩ := List.length_eq_one.1 hdl
    subst ha
    have ha2 := hd a (by simp)
    rcases hml with hml | hml
    · obtain ⟨b, hb⟩ := List.length_eq_one.1 hml
      subst hb
      have hb2 := hm b (by simp)
      simp [coreNumEnd, takeDigit2or1, takeDigits4, expectDot, ha2, hb2,
        hh1, hh2, hh3, hh4, isDigitC_dot]
    · obtain ⟨b, b2, hb⟩ := List.length_eq_two.1 hml
      subst hb
      have hb2 := hm b (by simp)
      have hb3 := hm b2 (by simp)
      simp [coreNumEnd, takeDigit2or1, takeDigits4, expectDot, ha2, hb2, hb3,
        hh1, hh2, hh3, hh4, isDigitC_dot]
  · obtain ⟨a, a2, ha⟩ := List.length_eq_two.1 hdl
    subst ha
    have ha2 := hd a (by simp)
    have ha3 := hd a2 (by simp)
    rcases hml with hml | hml
    · obtain ⟨b, hb⟩ := List.length_eq_one.1 hml
      subst hb
      have hb2 := hm b (by simp)
      simp [coreNumEnd, takeDigit2or1, takeDigits4, expectDot, ha2, ha3, hb2,
        hh1, hh2, hh3, hh4, isDigitC_dot]
    · obtain ⟨b, b2, hb⟩ := List.length_eq_two.1 hml
      subst hb
      have hb2 := hm b (by simp)
      have hb3 := hm b2 (by simp)
      simp [coreNumEnd, takeDigit2or1, takeDigits4, expectDot, ha2, ha3, hb2, hb3,
        hh1, hh2, hh3, hh4, isDigitC_dot]

/-- C3: a numeric `DD.MM.YYYY` text (day and month of one or two digits, year
of four digits, nothing else) normalizes to the same components rearranged as
`YYYY-MM-DD` with day and month zero-padded; and `"Do. 5.6."` (year absent)
normalizes to the run's current year `y` rendered as `y-06-05`. -/
theorem c3_numeric_date (y : Nat) :
    (∀ d m yr : List Char,
      (∀ c ∈ d, isDigitC c = true) → (d.length = 1 ∨ d.length = 2) →
      (∀ c ∈ m, isDigitC c = true) → (m.length = 1 ∨ m.length = 2) →
      (∀ c ∈ yr, isDigitC c = true) → yr.length = 4 →
      extractDateFromText y (String.mk (d ++ '.' :: (m ++ '.' :: yr))) =
        String.mk (yr ++ '-' :: (pad2 m ++ '-' :: pad2 d))) ∧
    extractDateFromText y "Do. 5.6." = natString y ++ "-06-05" := by
  constructor
  · intro d m yr hd hdl hm hml hyr hyl
    set l := d ++ '.' :: (m ++ '.' :: yr) with hldef
    have hne : l ≠ [] := by
      intro hnil
      rw [hldef] at hnil
      exact absurd (List.append_eq_nil.1 hnil).2 (by simp)
    have hnows : ∀ c ∈ l, isWs c = false := by
      intro c hc
      rw [hldef] at hc
      simp only [List.mem_append, List.mem_cons] at hc
      rcases hc with hc | hc | hc | hc | hc
      · exact not_ws_of_digit (hd c hc)
      · rw [hc]; decide
      · exact not_ws_of_digit (hm c hc)
      · rw [hc]; decide
      · exact not_ws_of_digit (hyr c hc)
    have hclean : cleanL l = l := cleanL_eq_self_of_no_ws hnows
    have hsearch : searchO coreNumEnd l = some (d, m, yr) :=
      searchO_eq_some_of_head (coreNumEnd_eval hd hdl hm hml hyr hyl)
    have hchain : matchChain (natChars y) l = some (fmtDMY d m yr) := by
      simp [matchChain, hsearch]
    show String.mk (extractDateL (natChars y) l) = _
    rw [extractDateL_cons hne, hclean, hchain]
    rfl
  · rfl

/-- Witness for C3 at `"16.05.2025"` and `"Do. 5.6."` with current year 2025. -/
theorem c3_witness :
    extractDateFromText 2025 "16.05.2025" = "2025-05-16" ∧
    extractDateFromText 2025 "Do. 5.6." = "2025-06-05" := by
  constructor
  · have h := (c3_numeric_date 2025).1 ['1', '6'] ['0', '5'] ['2', '0', '2', '5']
      (by decide) (by decide) (by decide) (by decide) (by decide) (by decide)
    have e1 : String.mk (['1', '6'] ++ '.' :: (['0', '5'] ++ '.' :: ['2', '0', '2', '5'])) =
        "16.05.2025" := by decide
    have e2 : String.mk (['2', '0', '2', '5'] ++ '-' ::
        (pad2 ['0', '5'] ++ '-' :: pad2 ['1', '6'])) = "2025-05-16" := by decide
    rw [e1, e2] at h
    exact h
  · have h := (c3_numeric_date 2025).2
    rw [h]
    decide

/-! ## Claim C8 -/

theorem skipOptDot_space (ys : List Char) : skipOptDot (' ' :: ys) = ' ' :: ys := by
  rw [skipOptDot, if_neg (by decide)]

theorem skipOptDot_dot (ys : List Char) : skipOptDot ('.' :: ys) = ys := by
  rw [skipOptDot, if_pos rfl]

/-- Pattern 5 (`DD \.? \s+ monthname \.? \s+ YYYY`) matches a
`DD. name YYYY` text at position zero, capturing the three groups. -/
theorem coreMonthName_eval {d name yr : List Char}
    (hd : ∀ c ∈ d, isDigitC c = true) (hdl : d.length = 1 ∨ d.length = 2)
    (hname : name ≠ []) (hnc : ∀ c ∈ name, isMonthChar c = true)
    (hyr : ∀ c ∈ yr, isDigitC c = true) (hyl : yr.length = 4) :
    coreMonthName (d ++ '.' :: ' ' :: (name ++ ' ' :: yr)) = some (d, name, yr) := by
  obtain ⟨y1, y2, y3, y4, hy4, hh1, hh2, hh3, hh4⟩ := digitCapture4_shape ⟨hyr, hyl⟩
  subst hy4
  rcases name with _ | ⟨n0, ntail⟩
  · exact absurd rfl hname
  have hn0 := hnc n0 (by simp)
  have hn0ws : isWs n0 = false := not_ws_of_monthChar hn0
  have hy1ws : isWs y1 = false := not_ws_of_digit hh1
  have htw2 := takeWhile_all_append isMonthChar ntail ' ' [y1, y2, y3, y4]
    (fun c hc => hnc c (by simp [hc])) (by decide)
  rcases hdl with hdl | hdl
  · obtain ⟨a, ha⟩ := List.length_eq_one.1 hdl
    subst ha
    have ha2 := hd a (by simp)
    simp [coreMonthName, takeDigit2or1, takeDigits4, skipOptDot_space,
      skipOptDot_dot, List.dropWhile_cons, List.takeWhile_cons, ha2,
      isDigitC_dot, isWs_space, hn0, hn0ws, hy1ws,
      htw2.1, htw2.2, hh1, hh2, hh3, hh4]
  · obtain ⟨a, a2, ha⟩ := List.length_eq_two.1 hdl
    subst ha
    have ha2 := hd a (by simp)
    have ha3 := hd a2 (by simp)
    simp [coreMonthName, takeDigit2or1, takeDigits4, skipOptDot_space,
      skipOptDot_dot, List.dropWhile_cons, List.takeWhile_cons, ha2, ha3,
      isDigitC_dot, isWs_space, hn0, hn0ws, hy1ws,
      htw2.1, htw2.2, hh1, hh2, hh3, hh4]

/-- C8: a `DD. <MonthName> YYYY` text whose month name is, after
lowercasing, a key of the bilingual German/English month table normalizes to
`YYYY-MM-DD` with the looked-up month number and the zero-padded day. -/
theorem c8_bilingual_month_name (y : Nat) (d name yr : List Char) (mm : String)
    (hd : ∀ c ∈ d, isDigitC c = true) (hdl : d.length = 1 ∨ d.length = 2)
    (hname : name ≠ []) (hnc : ∀ c ∈ name, isMonthChar (lowerChar c) = true)
    (hyr : ∀ c ∈ yr, isDigitC c = true) (hyl : yr.length = 4)
    (hmm : lookupMonth (String.mk (lowerL name)) = some mm) :
    extractDateFromText y (String.mk (d ++ '.' :: ' ' :: (name ++ ' ' :: yr))) =
      String.mk (yr ++ '-' :: (mm.data ++ '-' :: pad2 d)) := by
  have hnf : ∀ c ∈ name, isWs c = false ∧ (c == '.') = false ∧ isDigitC c = false :=
    fun c hc => monthChar_lower_src (hnc c hc)
  set l := d ++ '.' :: ' ' :: (name ++ ' ' :: yr) with hldef
  have hdne : d ≠ [] := by
    rcases hdl with h | h <;> (intro hn; rw [hn] at h; simp at h)
  have hyrne : yr ≠ [] := by
    intro hn
    rw [hn] at hyl
    simp at hyl
  have hne : l ≠ [] := by
    intro hnil
    rw [hldef] at hnil
    exact absurd (List.append_eq_nil.1 hnil).2 (by simp)
  have hws1 : wsOnlySpace l := by
    intro c hc hcw
    rw [hldef] at hc
    simp only [List.mem_append, List.mem_cons] at hc
    rcases hc with hc | hc | hc | hc | hc | hc
    · rw [not_ws_of_digit (hd c hc)] at hcw
      exact Bool.noConfusion hcw
    · rw [hc] at hcw
      exact absurd hcw (by decide)
    · exact hc
    · rw [(hnf c hc).1] at hcw
      exact Bool.noConfusion hcw
    · exact hc
    · rw [not_ws_of_digit (hyr c hc)] at hcw
      exact Bool.noConfusion hcw
  have hadj : noAdjWs l := by
    rw [hldef]
    unfold noAdjWs
    rw [List.chain'_append]
    refine ⟨noAdjWs_of_no_ws d (fun c hc => not_ws_of_digit (hd c hc)), ?_, ?_⟩
    · rw [List.chain'_cons']
      refine ⟨fun c _ => by simp [show isWs '.' = false from by decide], ?_⟩
      rw [List.chain'_cons']
      constructor
      · intro c hc
        rw [List.head?_append] at hc
        rcases name with _ | ⟨n0, ntail⟩
        · exact absurd rfl hname
        · simp only [List.head?_cons, Option.or_some, Option.mem_def,
            Option.some.injEq] at hc
          rw [← hc]
          simp [(hnf n0 (by simp)).1]
      · rw [List.chain'_append]
        refine ⟨noAdjWs_of_no_ws name (fun c hc => (hnf c hc).1), ?_, ?_⟩
        · rw [List.chain'_cons']
          refine ⟨?_, noAdjWs_of_no_ws yr (fun c hc => not_ws_of_digit (hyr c hc))⟩
          intro c hc
          have hcm : c ∈ yr := List.mem_of_mem_head? hc
          simp [not_ws_of_digit (hyr c hcm)]
        · intro x hx c hc
          simp only [List.head?_cons, Option.mem_def, Option.some.injEq] at hc
          have hxw := (hnf x (mem_of_mem_getLastQ hx)).1
          simp [hxw]
    · intro x hx c hc
      simp only [List.head?_cons, Option.mem_def, Option.some.injEq] at hc
      have hxw := not_ws_of_digit (hd x (mem_of_mem_getLastQ hx))
      simp [hxw]
  have hhead : ∀ c ∈ l.head?, isWs c = false := by
    intro c hc
    rw [hldef, List.head?_append] at hc
    rcases d with _ | ⟨d0, dt⟩
    · exact absurd rfl hdne
    · simp only [List.head?_cons, Option.or_some, Option.mem_def,
        Option.some.injEq] at hc
      rw [← hc]
      exact not_ws_of_digit (hd d0 (by simp))
  have hlast : ∀ c ∈ l.getLast?, isWs c = false := by
    intro c hc
    have hre : l = (d ++ '.' :: ' ' :: name) ++ (' ' :: yr) := by
      rw [hldef]
      simp
    rw [hre, List.getLast?_append_of_ne_nil _ (show (' ' :: yr) ≠ [] by simp)] at hc
    rw [show (' ' :: yr) = [' '] ++ yr from rfl,
      List.getLast?_append_of_ne_nil _ hyrne] at hc
    exact not_ws_of_digit (hyr c (mem_of_mem_getLastQ hc))
  have hclean : cleanL l = l := cleanL_eq_self_of_tidy hws1 hadj hhead hlast
  have hdotfree : dotDigitB l = false := by
    rcases name with _ | ⟨n0, ntail⟩
    · exact absurd rfl hname
    rcases yr with _ | ⟨y1, yt⟩
    · exact absurd rfl hyrne
    rw [hldef]
    rw [noDots_append d _ (fun c hc => ne_dot_of_digit (hd c hc))]
    have e2 : ((' ' : Char) == '.') = false := by decide
    rw [show ('.' :: ' ' :: (n0 :: ntail ++ ' ' :: y1 :: yt)) =
      ('.' :: ' ' :: n0 :: (ntail ++ ' ' :: y1 :: yt)) from by simp]
    have hrem : dotDigitB (n0 :: (ntail ++ ' ' :: y1 :: yt)) = false := by
      rw [← List.cons_append,
        noDots_append (n0 :: ntail) _ (fun c hc => (hnf c hc).2.1)]
      simp only [dotDigitB]
      rw [dotDigitB_eq_false (y1 :: yt) (fun c hc => ne_dot_of_digit (hyr c hc))]
      simp [e2]
    simp only [dotDigitB]
    rw [hrem]
    simp [e2, isDigitC_space]
  have s1 := searchO_none_of_dotFree (fun l2 x h2 => coreNumEnd_dot h2) hdotfree
  have s2 := searchO_none_of_dotFree (fun l2 x h2 => coreNumAny_dot h2) hdotfree
  have s3 := searchO_none_of_dotFree (fun l2 x h2 => coreNumOpt_dot h2) hdotfree
  have s4 := searchO_none_of_dotFree (fun l2 x h2 => coreAbbrevDay_dot h2) hdotfree
  have hlow : lowerL l = d ++ '.' :: ' ' :: (lowerL name ++ ' ' :: yr) := by
    rw [hldef]
    simp only [lowerL, List.map_append, List.map_cons]
    rw [show List.map lowerChar d = d from lowerL_digits hd,
      show lowerChar '.' = '.' from by decide,
      show lowerChar ' ' = ' ' from by decide,
      show List.map lowerChar yr = yr from lowerL_digits hyr]
  have hs5core : coreMonthName (lowerL l) = some (d, lowerL name, yr) := by
    rw [hlow]
    refine coreMonthName_eval hd hdl ?_ ?_ hyr hyl
    · simp only [lowerL, ne_eq, List.map_eq_nil_iff]
      exact hname
    · intro c hc
      obtain ⟨c0, hc0, hc0l⟩ := List.mem_map.1 hc
      rw [← hc0l]
      exact hnc c0 hc0
  have hs5 : searchO coreMonthName (lowerL l) = some (d, lowerL name, yr) :=
    searchO_eq_some_of_head hs5core
  have hlook : lookupMonth (String.mk (lowerL (lowerL name))) = some mm := by
    rw [lowerL_idem]
    exact hmm
  have hchain : matchChain (natChars y) l =
      some (yr ++ '-' :: (mm.data ++ '-' :: pad2 d)) := by
    simp [matchChain, s1, s2, s3, s4, hs5, hlook]
  show String.mk (extractDateL (natChars y) l) = _
  rw [extractDateL_cons hne, hclean, hchain]
  rfl

/-- Witness for C8 at `"16. Mai 2025"` and `"16. May 2025"`. -/
theorem c8_witness :
    extractDateFromText 2025 "16. Mai 2025" = "2025-05-16" ∧
    extractDateFromText 2025 "16. May 2025" = "2025-05-16" := by
  constructor
  · have h := c8_bilingual_month_name 2025 ['1', '6'] ['M', 'a', 'i']
      ['2', '0', '2', '5'] "05" (by decide) (by decide) (by decide) (by decide)
      (by decide) (by decide) (by decide)
    have e1 : String.mk (['1', '6'] ++ '.' :: ' ' ::
        (['M', 'a', 'i'] ++ ' ' :: ['2', '0', '2', '5'])) = "16. Mai 2025" := by decide
    have e2 : String.mk (['2', '0', '2', '5'] ++ '-' ::
        (("05" : String).data ++ '-' :: pad2 ['1', '6'])) = "2025-05-16" := by decide
    rw [e1, e2] at h
    exact h
  · have h := c8_bilingual_month_name 2025 ['1', '6'] ['M', 'a', 'y']
      ['2', '0', '2', '5'] "05" (by decide) (by decide) (by decide) (by decide)
      (by decide) (by decide) (by decide)
    have e1 : String.mk (['1', '6'] ++ '.' :: ' ' ::
        (['M', 'a', 'y'] ++ ' ' :: ['2', '0', '2', '5'])) = "16. May 2025" := by decide
    have e2 : String.mk (['2', '0', '2', '5'] ++ '-' ::
        (("05" : String).data ++ '-' :: pad2 ['1', '6'])) = "2025-05-16" := by decide
    rw [e1, e2] at h
    exact h

/-! ## Claim C4 -/

theorem mk_ne_empty_iff {l : List Char} : String.mk l ≠ "" ↔ l ≠ [] := by
  constructor
  · intro h hn
    exact h (by rw [hn])
  · intro h hn
    exact h (string_mk_inj hn)

theorem mk_ne_str_iff {l : List Char} {s : String} : String.mk l ≠ s ↔ l ≠ s.data := by
  cases s with
  | mk d =>
    constructor
    · intro h hn
      exact h (by rw [hn])
    · intro h hn
      exact h (string_mk_inj hn)

theorem extractDateL_of_clean {yd cs : List Char} (hs : cleanL cs = cs) (hne : cs ≠ []) :
    extractDateL yd cs = (matchChain yd cs).getD cs := by
  rw [extractDateL_cons hne, hs]

/-- On an already-cleaned nonempty text, the cascade fires precisely when the
normalized result is neither empty nor the input itself: this is exactly the
`hasDate` test of the generic loop. -/
theorem found_iff_ne (y : Nat) {cs : List Char} (hs : cleanL cs = cs) (hne : cs ≠ []) :
    datePatternFound cs = true ↔
      (extractDateL (natChars y) cs ≠ [] ∧ extractDateL (natChars y) cs ≠ cs) := by
  rw [extractDateL_of_clean hs hne]
  constructor
  · intro hf
    have hsome : (matchChain (natChars y) cs).isSome = true := by
      rw [matchChain_isSome_indep (natChars y) [] cs]
      exact hf
    obtain ⟨out, hout⟩ := Option.isSome_iff_exists.1 hsome
    rw [hout]
    simp only [Option.getD_some]
    exact matchChain_out_ne (natChars_digits y) hout
  · rintro ⟨h1, h2⟩
    by_contra hf
    rw [Bool.not_eq_true] at hf
    have hnone : matchChain (natChars y) cs = none := by
      rcases hm : matchChain (natChars y) cs with _ | out
      · rfl
      · exfalso
        have hindep := matchChain_isSome_indep (natChars y) [] cs
        rw [hm] at hindep
        simp only [Option.isSome_some] at hindep
        unfold datePatternFound at hf
        rw [← hindep] at hf
        exact Bool.noConfusion hf
    rw [hnone] at h2
    simp only [Option.getD_none] at h2
    exact h2 rfl

theorem cleanText_data_clean (s : String) : cleanL (cleanText s).data = (cleanText s).data := by
  show cleanL (cleanL s.data) = cleanL s.data
  exact cleanL_idem s.data

/-- C4: in the generic extraction loop a candidate is kept if and only if its
cleaned title is non-empty and either one of the normalizer's patterns fires
on the candidate's date text (falling back to the title when the date text is
empty) or the raw cleaned date text is non-empty.  In particular a candidate
with an empty title is always dropped. -/
theorem c4_generic_inclusion_rule (y now : Nat) (base venue : String) (i : Nat)
    (c : RawFields) :
    (processCandidate y now base venue i c).isSome = true ↔
      (cleanText c.rawTitle ≠ "" ∧
        (datePatternFound ((if cleanText c.rawDate = "" then cleanText c.rawTitle
            else cleanText c.rawDate)).data = true ∨
          cleanText c.rawDate ≠ "")) := by
  simp only [processCandidate]
  split
  · next hD0 =>
    split
    · next hcond =>
      refine ⟨fun _ => ?_, fun _ => rfl⟩
      simp only [Bool.and_eq_true, Bool.or_eq_true, bne_iff_ne, ne_eq] at hcond
      refine ⟨hcond.1, ?_⟩
      rcases hcond.2 with ⟨⟨h1, h2⟩, h3⟩ | hDne
      · left
        have hTne : (cleanText c.rawTitle).data ≠ [] := by
          rw [← string_ne_empty_iff]
          exact hcond.1
        rw [found_iff_ne y (cleanText_data_clean c.rawTitle) hTne]
        constructor
        · rw [← mk_ne_empty_iff]
          exact h1
        · rw [← mk_ne_str_iff]
          exact h3
      · exact absurd hD0 hDne
    · next hcond =>
      constructor
      · intro hx
        exact absurd hx (by simp)
      · rintro ⟨hTne, hor⟩
        exfalso
        apply hcond
        simp only [Bool.and_eq_true, Bool.or_eq_true, bne_iff_ne, ne_eq]
        refine ⟨hTne, ?_⟩
        rcases hor with hfound | hDne
        · left
          have hTdne : (cleanText c.rawTitle).data ≠ [] := by
            rw [← string_ne_empty_iff]
            exact hTne
          rw [found_iff_ne y (cleanText_data_clean c.rawTitle) hTdne] at hfound
          have hdne : extractDateFromText y (cleanText c.rawTitle) ≠ "" := by
            unfold extractDateFromText
            rw [mk_ne_empty_iff]
            exact hfound.1
          refine ⟨⟨hdne, ?_⟩, ?_⟩
          · rw [hD0]
            exact hdne
          · unfold extractDateFromText
            exact mk_ne_str_iff.mpr hfound.2
        · exact absurd hD0 hDne
  · next hD0 =>
    split
    · next hcond =>
      refine ⟨fun _ => ?_, fun _ => rfl⟩
      simp only [Bool.and_eq_true, Bool.or_eq_true, bne_iff_ne, ne_eq] at hcond
      exact ⟨hcond.1, Or.inr hD0⟩
    · next hcond =>
      constructor
      · intro hx
        exact absurd hx (by simp)
      · rintro ⟨hTne, _⟩
        exfalso
        apply hcond
        simp only [Bool.and_eq_true, Bool.or_eq_true, bne_iff_ne, ne_eq]
        exact ⟨hTne, Or.inr hD0⟩

/-! ## Claim C5 -/

theorem artilleryItem_eq (now : Nat) (url : String) (i : Nat) (p : Product)
    (h : ¬ cleanText p.rawName = "") :
    artilleryItem now url i p = some
      { id := mkId i now
      , title := cleanText p.rawName
      , date := match searchO coreNumAny (cleanText p.rawName).data with
                | some (d, m, y) => String.mk (fmtDMY d m y)
                | none => ""
      , description := if cleanText p.rawPrice != "" then
            "Price: " ++ cleanText p.rawPrice else ""
      , url := if (p.href).getD "" != "" then resolveUrl ((p.href).getD "") url else url
      , venue := some "Artillery Productions"
      , imageUrl := (match p.src with
                     | some s => if s = "" then none else some s
                     | none => none).map (fun u => resolveUrl u url) } := by
  unfold artilleryItem
  rw [if_neg h]

theorem artilleryAux_mem (clock : Nat → Nat) (url : String) (p : Product)
    (hname : cleanText p.rawName ≠ "") :
    ∀ (ps : List Product), p ∈ ps → ∀ (i : Nat),
      ∃ k e, artilleryItem (clock k) url k p = some e ∧
        e ∈ artilleryAux clock url i ps := by
  intro ps
  induction ps with
  | nil =>
    intro hp
    exact absurd hp (List.not_mem_nil p)
  | cons q rest ih =>
    intro hp i
    rcases List.mem_cons.1 hp with rfl | hmem
    · refine ⟨i, _, artilleryItem_eq (clock i) url i p hname, ?_⟩
      show _ ∈ artilleryAux clock url i (p :: rest)
      simp only [artilleryAux, artilleryItem_eq (clock i) url i p hname]
      exact List.mem_cons_self _ _
    · obtain ⟨k, e, hk, hmem2⟩ := ih hmem (i + 1)
      refine ⟨k, e, hk, ?_⟩
      show e ∈ artilleryAux clock url i (q :: rest)
      rcases hq : artilleryItem (clock i) url i q with _ | e2
      · simp only [artilleryAux, hq]
        exact hmem2
      · simp only [artilleryAux, hq]
        exact List.mem_cons_of_mem _ hmem2

/-- C5: every catalog-style (BigCartel) product whose cleaned title is
non-empty and contains a numeric `DD.MM.YYYY` date yields an event whose
title is the cleaned product name, whose date is that date normalized to
`YYYY-MM-DD`, and whose description is `"Price: "` followed by the cleaned
price text whenever a price is present. -/
theorem c5_artillery_date_and_price (clock : Nat → Nat) (url : String)
    (ps : List Product) (p : Product) (d m yr : List Char)
    (hp : p ∈ ps)
    (hname : cleanText p.rawName ≠ "")
    (hdate : searchO coreNumAny (cleanText p.rawName).data = some (d, m, yr)) :
    ∃ e ∈ extractArtilleryEvents clock url ps,
      e.title = cleanText p.rawName ∧
      e.date = String.mk (fmtDMY d m yr) ∧
      (cleanText p.rawPrice ≠ "" →
        e.description = "Price: " ++ cleanText p.rawPrice) := by
  obtain ⟨k, e, hk, hmem⟩ := artilleryAux_mem clock url p hname ps hp 0
  rw [artilleryItem_eq (clock k) url k p hname] at hk
  obtain rfl := (Option.some.inj hk).symm
  refine ⟨_, hmem, rfl, ?_, ?_⟩
  · show (match searchO coreNumAny (cleanText p.rawName).data with
      | some (d, m, y) => String.mk (fmtDMY d m y)
      | none => "") = String.mk (fmtDMY d m yr)
    rw [hdate]
  · intro hprice
    show (if (cleanText p.rawPrice != "") = true then
        "Price: " ++ cleanText p.rawPrice else "") = "Price: " ++ cleanText p.rawPrice
    rw [if_pos (bne_iff_ne.mpr hprice)]

theorem c5_witness :
    ∃ e ∈ extractArtilleryEvents (fun _ => 5)
        "https://artilleryproductions.bigcartel.com/"
        [⟨"GIG NIGHT - 12.09.2025", "€15", none, none⟩],
      e.title = cleanText "GIG NIGHT - 12.09.2025" ∧
      e.date = String.mk (fmtDMY ['1', '2'] ['0', '9'] ['2', '0', '2', '5']) ∧
      (cleanText "€15" ≠ "" → e.description = "Price: " ++ cleanText "€15") :=
  c5_artillery_date_and_price (fun _ => 5)
    "https://artilleryproductions.bigcartel.com/"
    [⟨"GIG NIGHT - 12.09.2025", "€15", none, none⟩]
    ⟨"GIG NIGHT - 12.09.2025", "€15", none, none⟩
    ['1', '2'] ['0', '9'] ['2', '0', '2', '5']
    (by decide) (by decide) (by decide)

/-! ## Claim C7 -/

theorem processCandidate_stripId (y now1 now2 : Nat) (base venue : String)
    (i : Nat) (c : RawFields) :
    (processCandidate y now1 base venue i c).map stripId =
      (processCandidate y now2 base venue i c).map stripId := by
  simp only [processCandidate, apply_ite (Option.map stripId)]
  exact if_congr Iff.rfl rfl rfl

theorem scrapeAux_stripId (y : Nat) (clock1 clock2 : Nat → Nat)
    (base venue : String) :
    ∀ (doc : List RawFields) (i : Nat),
      (scrapeAux y clock1 base venue i doc).map stripId =
        (scrapeAux y clock2 base venue i doc).map stripId := by
  intro doc
  induction doc with
  | nil =>
    intro i
    rfl
  | cons c rest ih =>
    intro i
    have h := processCandidate_stripId y (clock1 i) (clock2 i) base venue i c
    rcases h1 : processCandidate y (clock1 i) base venue i c with _ | e1 <;>
      rcases h2 : processCandidate y (clock2 i) base venue i c with _ | e2
    · simp only [scrapeAux, h1, h2]
      exact ih (i + 1)
    · rw [h1, h2] at h
      simp at h
    · rw [h1, h2] at h
      simp at h
    · rw [h1, h2] at h
      simp only [Option.map_some'] at h
      simp only [scrapeAux, h1, h2, List.map_cons]
      rw [Option.some.inj h, ih (i + 1)]

/-- C7 (amended): the claim that extraction is a pure function of the
document and URL alone fails, because each kept candidate's id embeds
`Date.now()`: the same document scraped at two different times yields
different event lists (see the counterexample).  What does hold: apart from
the ids, the generic extraction output is a pure function of the document
content, the source URL and the current year — it does not depend on the
millisecond clock at all. -/
theorem c7_pure_modulo_ids (y : Nat) (clock1 clock2 : Nat → Nat) (url : String)
    (doc : List RawFields) :
    (scrapeWithCheerioGeneric y clock1 url doc).map stripId =
      (scrapeWithCheerioGeneric y clock2 url doc).map stripId :=
  scrapeAux_stripId y clock1 clock2 url (venueFor url) doc 0

/-- C7 counterexample: one candidate document scraped with the clock reading
1 versus reading 2 produces different event lists — the ids differ
(`event-0-1` vs `event-0-2`), so extraction is not a pure function of the
document and URL alone. -/
theorem c7_counterexample :
    scrapeWithCheerioGeneric 2025 (fun _ => 1) "https://pmk.or.at/termine"
        [⟨"Konzert", "16.05.2025", "", none, none⟩] ≠
      scrapeWithCheerioGeneric 2025 (fun _ => 2) "https://pmk.or.at/termine"
        [⟨"Konzert", "16.05.2025", "", none, none⟩] := by
  decide

/-! ## Claim C6 -/

theorem ite_some_elim {α : Type} {C : Prop} [Decidable C] {R e : α}
    (h : (if C then some R else none) = some e) : e = R := by
  by_cases hc : C
  · rw [if_pos hc] at h
    exact (Option.some.inj h).symm
  · rw [if_neg hc] at h
    exact absurd h (by simp)

theorem processCandidate_id (y now : Nat) (base venue : String) (i : Nat)
    (c : RawFields) (e : EventData)
    (h : processCandidate y now base venue i c = some e) : e.id = mkId i now := by
  simp only [processCandidate] at h
  rw [ite_some_elim h]

theorem scrapeAux_mem_id (y : Nat) (clock : Nat → Nat) (base venue : String) :
    ∀ (doc : List RawFields) (i : Nat) (e : EventData),
      e ∈ scrapeAux y clock base venue i doc →
      ∃ k, i ≤ k ∧ e.id = mkId k (clock k) := by
  intro doc
  induction doc with
  | nil =>
    intro i e he
    exact absurd he (List.not_mem_nil e)
  | cons c rest ih =>
    intro i e he
    rcases hc : processCandidate y (clock i) base venue i c with _ | e0
    · rw [show scrapeAux y clock base venue i (c :: rest) =
          scrapeAux y clock base venue (i + 1) rest from by simp [scrapeAux, hc]] at he
      obtain ⟨k, hk, hid⟩ := ih (i + 1) e he
      exact ⟨k, by omega, hid⟩
    · rw [show scrapeAux y clock base venue i (c :: rest) =
          e0 :: scrapeAux y clock base venue (i + 1) rest from by simp [scrapeAux, hc]] at he
      rcases List.mem_cons.1 he with rfl | hmem
      · exact ⟨i, Nat.le_refl i, processCandidate_id y (clock i) base venue i c e hc⟩
      · obtain ⟨k, hk, hid⟩ := ih (i + 1) e hmem
        exact ⟨k, by omega, hid⟩

theorem scrapeAux_ids_nodup (y : Nat) (clock : Nat → Nat) (base venue : String) :
    ∀ (doc : List RawFields) (i : Nat),
      ((scrapeAux y clock base venue i doc).map EventData.id).Nodup := by
  intro doc
  induction doc with
  | nil =>
    intro i
    exact List.nodup_nil
  | cons c rest ih =>
    intro i
    rcases hc : processCandidate y (clock i) base venue i c with _ | e0
    · rw [show scrapeAux y clock base venue i (c :: rest) =
          scrapeAux y clock base venue (i + 1) rest from by simp [scrapeAux, hc]]
      exact ih (i + 1)
    · rw [show scrapeAux y clock base venue i (c :: rest) =
          e0 :: scrapeAux y clock base venue (i + 1) rest from by simp [scrapeAux, hc]]
      rw [List.map_cons, List.nodup_cons]
      refine ⟨?_, ih (i + 1)⟩
      intro hmem
      rw [List.mem_map] at hmem
      obtain ⟨e2, hmem2, hid⟩ := hmem
      obtain ⟨k, hk, hid2⟩ := scrapeAux_mem_id y clock base venue rest (i + 1) e2 hmem2
      have h0 : e0.id = mkId i (clock i) :=
        processCandidate_id y (clock i) base venue i c e0 hc
      rw [hid2, h0] at hid
      have := mkId_inj hid
      omega

/-- C6 (amended): within a single site's generic extraction pass the event
ids are pairwise distinct — the per-candidate index embedded in the id grows
strictly along the pass, whatever millisecond timestamps the clock returns.
The original claim (distinct ids across the whole merged output of one
aggregator run) fails: two sites whose candidates at the same index are
processed in the same millisecond get identical ids (see the
counterexample). -/
theorem c6_ids_nodup_per_site (y : Nat) (clock : Nat → Nat) (url : String)
    (doc : List RawFields) :
    ((scrapeWithCheerioGeneric y clock url doc).map EventData.id).Nodup :=
  scrapeAux_ids_nodup y clock url (venueFor url) doc 0

/-- C6 counterexample: two sites scraped in the same millisecond (the clock
reads 5 for both passes) each emit an event with id `event-0-5`, so the
merged output of one aggregation run has a duplicated id. -/
theorem c6_counterexample :
    ¬ ((aggregateSites
        [⟨"https://www.treibhaus.at/programm",
          .ok (scrapeWithCheerioGeneric 2025 (fun _ => 5)
            "https://www.treibhaus.at/programm"
            [⟨"Konzert", "16.05.2025", "", none, none⟩])⟩,
         ⟨"https://pmk.or.at/termine",
          .ok (scrapeWithCheerioGeneric 2025 (fun _ => 5)
            "https://pmk.or.at/termine"
            [⟨"Konzert", "16.05.2025", "", none, none⟩])⟩]).1.map
        EventData.id).Nodup := by
  decide

/-! ## Claim C1 -/

theorem filterMap_siteFailure_ok : ∀ (l : List SiteRun),
    (∀ s ∈ l, ∃ evs, s.outcome = .ok evs) → l.filterMap siteFailure = [] := by
  intro l
  induction l with
  | nil =>
    intro _
    rfl
  | cons s rest ih =>
    intro h
    obtain ⟨evs, hs⟩ := h s (List.mem_cons_self s rest)
    rw [List.filterMap_cons, show siteFailure s = none from by simp [siteFailure, hs]]
    exact ih (fun s2 h2 => h s2 (List.mem_cons_of_mem s h2))

/-- C1 (amended): when exactly one site's dispatch throws, aggregation still
returns every event of the other sites, never throws, and records exactly one
failure entry — but that entry is the thrown `Error`'s own message (or
`"Unknown error scraping <url>"` only for a non-`Error` throw), so it need
not reference the failing site's URL at all (see the counterexample). -/
theorem c1_one_failure_isolated (pre post : List SiteRun) (u : String) (t : Thrown)
    (hpre : ∀ s ∈ pre, ∃ evs, s.outcome = .ok evs)
    (hpost : ∀ s ∈ post, ∃ evs, s.outcome = .ok evs) :
    aggregateSites (pre ++ ⟨u, .error t⟩ :: post) =
      ((pre.map siteEvents).flatten ++ (post.map siteEvents).flatten,
       [failureMessage u t]) := by
  unfold aggregateSites
  rw [Prod.mk.injEq]
  constructor
  · rw [List.map_append, List.flatten_append, List.map_cons, List.flatten_cons,
      show siteEvents ⟨u, .error t⟩ = [] from rfl, List.nil_append]
  · rw [List.filterMap_append, filterMap_siteFailure_ok pre hpre, List.filterMap_cons]
    simp only [show siteFailure ⟨u, .error t⟩ = some (failureMessage u t) from rfl]
    rw [filterMap_siteFailure_ok post hpost, List.nil_append]

theorem c1_witness :
    aggregateSites
      [⟨"https://www.treibhaus.at/programm",
        .ok [⟨"id1", "A", "2025-05-16", "", "u1", none, none⟩]⟩,
       ⟨"https://pmk.or.at/termine", .error (.error "network timeout")⟩,
       ⟨"https://artilleryproductions.bigcartel.com/",
        .ok [⟨"id3", "B", "2025-06-01", "", "u3", none, none⟩]⟩] =
      ([⟨"id1", "A", "2025-05-16", "", "u1", none, none⟩,
        ⟨"id3", "B", "2025-06-01", "", "u3", none, none⟩],
       ["network timeout"]) :=
  c1_one_failure_isolated
    [⟨"https://www.treibhaus.at/programm",
      .ok [⟨"id1", "A", "2025-05-16", "", "u1", none, none⟩]⟩]
    [⟨"https://artilleryproductions.bigcartel.com/",
      .ok [⟨"id3", "B", "2025-06-01", "", "u3", none, none⟩]⟩]
    "https://pmk.or.at/termine" (.error "network timeout")
    (by
      intro s hs
      simp only [List.mem_singleton] at hs
      subst hs
      exact ⟨_, rfl⟩)
    (by
      intro s hs
      simp only [List.mem_singleton] at hs
      subst hs
      exact ⟨_, rfl⟩)

/-- C1 counterexample: with three sites of which the middle one throws
`new Error("network timeout")`, aggregation keeps the other two sites' events
and records exactly one failure entry — but that entry is just
`"network timeout"`: the failing site's URL is not a substring of it, so the
claim that the failure entry references the failing site's URL is false. -/
theorem c1_counterexample :
    aggregateSites
      [⟨"https://www.treibhaus.at/programm",
        .ok [⟨"id1", "A", "2025-05-16", "", "u1", none, none⟩]⟩,
       ⟨"https://pmk.or.at/termine", .error (.error "network timeout")⟩,
       ⟨"https://artilleryproductions.bigcartel.com/",
        .ok [⟨"id3", "B", "2025-06-01", "", "u3", none, none⟩]⟩] =
      ([⟨"id1", "A", "2025-05-16", "", "u1", none, none⟩,
        ⟨"id3", "B", "2025-06-01", "", "u3", none, none⟩],
       ["network timeout"]) ∧
    hasSub "https://pmk.or.at/termine".data "network timeout".data = false := by
  constructor
  · decide
  · decide

/-! ## Claim C2 -/

theorem list_len2_elim {l : List Char} (h : l.length = 2) : ∃ a b, l = [a, b] := by
  rcases l with _ | ⟨a, l⟩
  · simp at h
  rcases l with _ | ⟨b, l⟩
  · simp at h
  rcases l with _ | ⟨c, l⟩
  · exact ⟨a, b, rfl⟩
  · simp only [List.length_cons] at h
    omega

theorem list_len4_elim {l : List Char} (h : l.length = 4) :
    ∃ a b c d, l = [a, b, c, d] := by
  rcases l with _ | ⟨a, l⟩
  · simp at h
  rcases l with _ | ⟨b, l⟩
  · simp at h
  rcases l with _ | ⟨c, l⟩
  · simp at h
  rcases l with _ | ⟨d, l⟩
  · simp at h
  rcases l with _ | ⟨e, l⟩
  · exact ⟨a, b, c, d, rfl⟩
  · simp only [List.length_cons] at h
    omega

theorem iso_assembled {y1 y2 y3 y4 m1 m2 d1 d2 : Char}
    (h1 : isDigitC y1 = true) (h2 : isDigitC y2 = true)
    (h3 : isDigitC y3 = true) (h4 : isDigitC y4 = true)
    (h5 : isDigitC m1 = true) (h6 : isDigitC m2 = true)
    (h7 : isDigitC d1 = true) (h8 : isDigitC d2 = true) :
    isIsoShape (String.mk
      ([y1, y2, y3, y4] ++ '-' :: ([m1, m2] ++ '-' :: [d1, d2]))) = true := by
  simp [isIsoShape, h1, h2, h3, h4, h5, h6, h7, h8]

theorem fmtDMY_iso {d m yv : List Char} (hd : digitCapture d) (hm : digitCapture m)
    (hy : digitCapture4 yv) :
    isIsoShape (String.mk (fmtDMY d m yv)) = true := by
  obtain ⟨da, db, hdp, hda, hdb⟩ := pad2_capture hd
  obtain ⟨ma, mb, hmp, hma, hmb⟩ := pad2_capture hm
  obtain ⟨y1, y2, y3, y4, hy4⟩ := list_len4_elim hy.2
  have hyd := hy.1
  subst hy4
  unfold fmtDMY
  rw [hdp, hmp]
  exact iso_assembled (hyd y1 (by simp)) (hyd y2 (by simp)) (hyd y3 (by simp))
    (hyd y4 (by simp)) hma hmb hda hdb

theorem matchChain_out_iso {y : Nat} (hy1 : 1000 ≤ y) (hy2 : y < 10000)
    {cs out : List Char} (h : matchChain (natChars y) cs = some out) :
    isIsoShape (String.mk out) = true := by
  obtain ⟨d, yv, mid, hd, hyv, hylen, ⟨hmlen, hmd⟩, hout, -⟩ := matchChain_some_elim h
  have hyvd : ∀ c ∈ yv, isDigitC c = true := by
    intro c hc
    rcases hyv c hc with hdig | hmem
    · exact hdig
    · exact natChars_digits y c hmem
  have hyv4 : yv.length = 4 := by
    rcases hylen with hl1 | hl2
    · exact hl1
    · rw [hl2]
      exact natChars_len4 hy1 hy2
  obtain ⟨da, db, hdp, hda, hdb⟩ := pad2_capture hd
  obtain ⟨y1, y2, y3, y4, hy4⟩ := list_len4_elim hyv4
  obtain ⟨m1, m2, hm2⟩ := list_len2_elim hmlen
  subst hy4
  subst hm2
  rw [hout, hdp]
  exact iso_assembled (hyvd y1 (by simp)) (hyvd y2 (by simp)) (hyvd y3 (by simp))
    (hyvd y4 (by simp)) (hmd m1 (by simp)) (hmd m2 (by simp)) hda hdb

theorem extractDate_ne_iso {y : Nat} (hy1 : 1000 ≤ y) (hy2 : y < 10000) (s : String)
    (hs : cleanL s.data = s.data)
    (h1 : extractDateFromText y s ≠ "") (h2 : extractDateFromText y s ≠ s) :
    isIsoShape (extractDateFromText y s) = true := by
  by_cases hsd : s.data = []
  · exfalso
    apply h1
    show String.mk (extractDateL (natChars y) s.data) = ""
    rw [hsd]
    rfl
  · have hl1 : extractDateL (natChars y) s.data ≠ [] := by
      intro hx
      apply h1
      show String.mk (extractDateL (natChars y) s.data) = ""
      rw [hx]
    have hl2 : extractDateL (natChars y) s.data ≠ s.data := by
      intro hx
      apply h2
      show String.mk (extractDateL (natChars y) s.data) = s
      rw [hx]
    have hfound : datePatternFound s.data = true :=
      (found_iff_ne y hs hsd).2 ⟨hl1, hl2⟩
    have hsome : (matchChain (natChars y) s.data).isSome = true := by
      rw [matchChain_isSome_indep (natChars y) [] s.data]
      exact hfound
    obtain ⟨out, hout⟩ := Option.isSome_iff_exists.1 hsome
    have heq : extractDateFromText y s = String.mk out := by
      show String.mk (extractDateL (natChars y) s.data) = String.mk out
      rw [extractDateL_of_clean hs hsd, hout]
      rfl
    rw [heq]
    exact matchChain_out_iso hy1 hy2 hout

theorem kept_date_cases (y now : Nat) (base venue : String) (i : Nat)
    (c : RawFields) (e : EventData)
    (h : processCandidate y now base venue i c = some e) :
    (e.date = extractDateFromText y (if cleanText c.rawDate = ""
        then cleanText c.rawTitle else cleanText c.rawDate) ∧
      e.date ≠ "" ∧ e.date ≠ cleanText c.rawDate ∧ e.date ≠ cleanText c.rawTitle) ∨
    e.date = cleanText c.rawDate := by
  simp only [processCandidate] at h
  have he := ite_some_elim h
  subst he
  set T := cleanText c.rawTitle with hT
  set DT := cleanText c.rawDate with hDT
  set D := extractDateFromText y (if DT = "" then T else DT) with hD
  cases hb : ((D != "") && (D != DT) && (D != T)) with
  | false =>
    right
    exact rfl
  | true =>
    left
    simp only [Bool.and_eq_true, bne_iff_ne, ne_eq] at hb
    exact ⟨rfl, hb.1.1, hb.1.2, hb.2⟩

theorem processCandidate_date_shape (y now : Nat) (hy1 : 1000 ≤ y) (hy2 : y < 10000)
    (base venue : String) (i : Nat) (c : RawFields) (e : EventData)
    (h : processCandidate y now base venue i c = some e) :
    isIsoShape e.date = true ∨ e.date = cleanText c.rawDate := by
  rcases kept_date_cases y now base venue i c e h with ⟨heq, h1, h2, h3⟩ | hdt
  · left
    by_cases hD0 : cleanText c.rawDate = ""
    · rw [if_pos hD0] at heq
      rw [heq] at h1 h3 ⊢
      exact extractDate_ne_iso hy1 hy2 _ (cleanText_data_clean c.rawTitle) h1 h3
    · rw [if_neg hD0] at heq
      rw [heq] at h1 h2 ⊢
      exact extractDate_ne_iso hy1 hy2 _ (cleanText_data_clean c.rawDate) h1 h2
  · right
    exact hdt

theorem scrapeAux_date_shape (y : Nat) (hy1 : 1000 ≤ y) (hy2 : y < 10000)
    (clock : Nat → Nat) (base venue : String) :
    ∀ (doc : List RawFields) (i : Nat) (e : EventData),
      e ∈ scrapeAux y clock base venue i doc →
      isIsoShape e.date = true ∨ ∃ c ∈ doc, e.date = cleanText c.rawDate := by
  intro doc
  induction doc with
  | nil =>
    intro i e he
    exact absurd he (List.not_mem_nil e)
  | cons c rest ih =>
    intro i e he
    rcases hc : processCandidate y (clock i) base venue i c with _ | e0
    · rw [show scrapeAux y clock base venue i (c :: rest) =
          scrapeAux y clock base venue (i + 1) rest from by simp [scrapeAux, hc]] at he
      rcases ih (i + 1) e he with hiso | ⟨c2, hc2, hdt⟩
      · exact Or.inl hiso
      · exact Or.inr ⟨c2, List.mem_cons_of_mem c hc2, hdt⟩
    · rw [show scrapeAux y clock base venue i (c :: rest) =
          e0 :: scrapeAux y clock base venue (i + 1) rest from by simp [scrapeAux, hc]] at he
      rcases List.mem_cons.1 he with rfl | hmem
      · rcases processCandidate_date_shape y (clock i) hy1 hy2 base venue i c e hc
          with hiso | hdt
        · exact Or.inl hiso
        · exact Or.inr ⟨c, List.mem_cons_self c rest, hdt⟩
      · rcases ih (i + 1) e hmem with hiso | ⟨c2, hc2, hdt⟩
        · exact Or.inl hiso
        · exact Or.inr ⟨c2, List.mem_cons_of_mem c hc2, hdt⟩

theorem artilleryItem_date_shape (now : Nat) (url : String) (i : Nat) (p : Product)
    (e : EventData) (h : artilleryItem now url i p = some e) :
    isIsoShape e.date = true ∨ e.date = "" := by
  by_cases ht : cleanText p.rawName = ""
  · unfold artilleryItem at h
    rw [if_pos ht] at h
    exact absurd h (by simp)
  · rw [artilleryItem_eq now url i p ht] at h
    obtain rfl := (Option.some.inj h).symm
    rcases hs : searchO coreNumAny (cleanText p.rawName).data with _ | ⟨d, m, yr⟩
    · right
      exact rfl
    · left
      obtain ⟨l, hl, hcore⟩ := searchO_some_suffix hs
      obtain ⟨hd, hm, hy⟩ := coreNumAny_shape hcore
      exact fmtDMY_iso hd hm hy

theorem artilleryAux_date_shape (clock : Nat → Nat) (url : String) :
    ∀ (ps : List Product) (i : Nat) (e : EventData),
      e ∈ artilleryAux clock url i ps →
      isIsoShape e.date = true ∨ e.date = "" := by
  intro ps
  induction ps with
  | nil =>
    intro i e he
    exact absurd he (List.not_mem_nil e)
  | cons q rest ih =>
    intro i e he
    rcases hq : artilleryItem (clock i) url i q with _ | e0
    · rw [show artilleryAux clock url i (q :: rest) =
          artilleryAux clock url (i + 1) rest from by simp [artilleryAux, hq]] at he
      exact ih (i + 1) e he
    · rw [show artilleryAux clock url i (q :: rest) =
          e0 :: artilleryAux clock url (i + 1) rest from by simp [artilleryAux, hq]] at he
      rcases List.mem_cons.1 he with rfl | hmem
      · exact artilleryItem_date_shape (clock i) url i q e hq
      · exact ih (i + 1) e hmem

/-- C2 (amended): every date a produced event carries is digit-shaped
`YYYY-MM-DD` or falls back to original text — but the normalized form is not
necessarily a **valid calendar date**: out-of-range day and month pass through
unvalidated (see the counterexample, where `32.13.2025` becomes `2025-13-32`).
What holds, for any current year rendered with four digits: a generic-path
event's date is either digit-shaped `YYYY-MM-DD` or the cleaned original date
text of some candidate of the document, and a catalog-path event's date is
either digit-shaped `YYYY-MM-DD` or the empty string (so it can be empty even
when the title held no date fragment). -/
theorem c2_date_shape (y : Nat) (hy1 : 1000 ≤ y) (hy2 : y < 10000)
    (clock clock2 : Nat → Nat) (url url2 : String) (doc : List RawFields)
    (ps : List Product) :
    (∀ e ∈ scrapeWithCheerioGeneric y clock url doc,
      isIsoShape e.date = true ∨ ∃ c ∈ doc, e.date = cleanText c.rawDate) ∧
    (∀ e ∈ extractArtilleryEvents clock2 url2 ps,
      isIsoShape e.date = true ∨ e.date = "") :=
  ⟨fun e he => scrapeAux_date_shape y hy1 hy2 clock url (venueFor url) doc 0 e he,
   fun e he => artilleryAux_date_shape clock2 url2 ps 0 e he⟩

theorem c2_witness :
    (∀ e ∈ scrapeWithCheerioGeneric 2025 (fun _ => 0) "https://pmk.or.at/termine"
        ([⟨"Konzert", "16.05.2025", "", none, none⟩] : List RawFields),
      isIsoShape e.date = true ∨
        ∃ c ∈ ([⟨"Konzert", "16.05.2025", "", none, none⟩] : List RawFields),
          e.date = cleanText c.rawDate) ∧
    (∀ e ∈ extractArtilleryEvents (fun _ => 0)
        "https://artilleryproductions.bigcartel.com/"
        ([⟨"GIG NIGHT - 12.09.2025", "€15", none, none⟩] : List Product),
      isIsoShape e.date = true ∨ e.date = "") :=
  c2_date_shape 2025 (by decide) (by decide) (fun _ => 0) (fun _ => 0)
    "https://pmk.or.at/termine" "https://artilleryproductions.bigcartel.com/"
    [⟨"Konzert", "16.05.2025", "", none, none⟩]
    [⟨"GIG NIGHT - 12.09.2025", "€15", none, none⟩]

/-- C2 counterexample: the generic path turns the cleaned date text
`32.13.2025` into `2025-13-32`, which is neither a valid `YYYY-MM-DD`
calendar date nor the original cleaned date text — normalization performs no
range validation, contradicting the claimed invariant. -/
theorem c2_counterexample :
    ∃ e ∈ scrapeWithCheerioGeneric 2025 (fun _ => 0) "https://pmk.or.at/termine"
        ([⟨"X", "32.13.2025", "", none, none⟩] : List RawFields),
      isValidCalendarDate e.date = false ∧ e.date ≠ cleanText "32.13.2025" := by
  decide

end Wosweat
